import Mathlib

/-! Verification development for the Cron-Price-Fetcher repository.

A shallow embedding of the core of the repository:
  * `src/types.ts`            — `SheetTokenRow`, `PriceResult`
  * `src/core/normalize.ts`   — `toPriceResult`
  * `src/storage.ts`          — `cacheKey` (the cache store itself is abstracted
                                as an oracle `String → Option PriceResult`)
  * `src/core/fetchPrice.ts`  — `fetchAllPrices` (the batch pipeline)
  * `src/vendors/dexscreener.ts` — `pickBestPair`, `fetchDexscreenerPrice`,
                                `fetchDexscreenerBatchByTokens`
  * `src/vendors/coingecko.ts`   — `fetchCoingeckoBatchByIds`
  * `src/vendors/cmc.ts`         — `fetchCmcBatchBySlugs`
  * `src/index.ts`            — `summarize`

Modelling conventions, used consistently below:
  * JavaScript numbers are modelled as `ℚ` (the claims under study concern
    control flow, ordering and comparisons, not float rounding); `number | null`
    becomes `Option ℚ`.
  * `String.toLowerCase()` / `String.trim()` are modelled by `jsToLower` /
    `jsTrim` below, mapping over the character list (kernel-reducible).
  * Timestamps (`new Date().toISOString()`) are abstracted as a `now : Nat`
    parameter threaded to every record-creation site.
  * Network effects are parameters: each upstream HTTP endpoint is an oracle
    function; a rejected promise is `Except.error ()`.  `pRetry` over such a
    deterministic oracle is the identity on outcomes (the same attempt is
    repeated), so an oracle error models "the call exhausted its retries";
    the request logs below count pRetry-wrapped lookups once, not per attempt.
  * A JavaScript object used as a string-keyed map is modelled as an
    association list `List (String × Option ℚ)` with unique keys (the adapters
    pre-fill all keys once, from a de-duplicated list, before any assignment).
-/

/-- Model of JavaScript `String.prototype.toLowerCase` (ASCII-adequate). -/
def jsToLower (s : String) : String :=
  String.mk (s.data.map Char.toLower)

/-- Model of JavaScript `String.prototype.trim`. -/
def jsTrim (s : String) : String :=
  String.mk (((s.data.dropWhile Char.isWhitespace).reverse.dropWhile Char.isWhitespace).reverse)

/-- The provenance tag of a price, `PriceResult["source"]` minus `null`
(types.ts line 21); `null` is `Option.none` around this type. -/
inductive Source where
  | dexscreener
  | coingecko
  | cmc
deriving DecidableEq, Repr

/-- `PriceResult` from types.ts.  `at` (an ISO timestamp in the source) is an
abstract `Nat` tick here. -/
structure PriceResult where
  chain : String
  address : String
  symbol : Option String
  priceUsd : Option ℚ
  source : Option Source
  «at» : Nat
deriving DecidableEq, Repr

/-- `SheetTokenRow` from types.ts, restricted to the fields the embedded code
reads (`cmcChain`, `decimals`, `cmc_id`, `logo`, `allocationPct` are never
consulted by the pipeline or the adapters). -/
structure SheetTokenRow where
  chain : String
  contract_address : String
  symbol : Option String
  coingecko_id : Option String
  cmc_slug : Option String
deriving DecidableEq, Repr

/-- `toPriceResult` from core/normalize.ts:
`priceUsd ?? null` is the identity on `Option ℚ`; the address is lower-cased;
`source` is `priceUsd == null ? null : source`; `at` is stamped with the
injected clock. -/
def toPriceResult (chain address : String) (priceUsd : Option ℚ)
    (source : Option Source) (symbol : Option String) (now : Nat) : PriceResult :=
  { chain := chain
    address := jsToLower address
    symbol := symbol
    priceUsd := priceUsd
    source := if priceUsd = none then none else source
    «at» := now }

/-- `cacheKey` from storage.ts. -/
def cacheKey (chain address : String) : String :=
  "price:" ++ chain ++ ":" ++ jsToLower address

/-- A provider result map as consumed by `fetchAllPrices`.  In the source the
adapter returns `Record<string, number | null>` and the pipeline tests
`key in map && map[key] != null`; that test depends only on whether the key is
mapped to an actual number, so absent and explicitly-null keys are merged into
`none`. -/
abbrev PMap := String → Option ℚ

/-- The three batch adapters as the pipeline sees them: a function from the key
list it is invoked with to a result map.  A thrown adapter is caught at the
call site (`.catch(() => ({}))`) and behaves as the constant-`none` map, which
is one instance of this abstraction. -/
structure Providers where
  dexBatch : List String → PMap
  geckoBatch : List String → PMap
  cmcBatch : List String → PMap

/-- One result-array filling loop of `fetchAllPrices` (the shape shared by
`applyMap`, the CoinGecko and CMC apply loops, and the final fill): walk the
given indices; skip a slot that is already filled (`if (results[i]) continue`);
otherwise write the value `val i` computes, when it computes one.  `val` never
reads the results array, matching the source. -/
def fillStep (val : Nat → Option PriceResult) (r : List (Option PriceResult))
    (i : Nat) : List (Option PriceResult) :=
  if (r.getD i none).isSome then r
  else
    match val i with
    | some v => r.set i (some v)
    | none => r

/-- A filling loop is the fold of its step over the index list. -/
def fillPass (val : Nat → Option PriceResult) (idxs : List Nat)
    (res : List (Option PriceResult)) : List (Option PriceResult) :=
  idxs.foldl (fillStep val) res

/-- Step 0 of `fetchAllPrices` (fetchPrice.ts lines 56–64): the results array
after the cache pass; slot `i` holds the cached record, if any, for
`cacheKey(tokens[i].chain, tokens[i].contract_address)`. -/
def results0 (cache : String → Option PriceResult) (tokens : List SheetTokenRow) :
    List (Option PriceResult) :=
  tokens.map (fun t => cache (cacheKey t.chain t.contract_address))

/-- The `needFetchIdx` list of fetchPrice.ts: indices whose cache lookup
missed, in input order. -/
def needFetchIdx (cache : String → Option PriceResult) (tokens : List SheetTokenRow) :
    List Nat :=
  (List.range tokens.length).filter (fun i => ((results0 cache tokens).getD i none).isNone)

/-- The value `applyMap` (fetchPrice.ts lines 68–83) writes into slot `i` when
the Dexscreener map resolves that token's lower-cased address.  (The `markSet`
accumulator of the source is dead: no caller reads it.) -/
def dexVal (tokens : List SheetTokenRow) (m : PMap) (now : Nat) (i : Nat) :
    Option PriceResult :=
  (tokens.get? i).bind fun t =>
    (m (jsToLower t.contract_address)).map fun p =>
      toPriceResult t.chain t.contract_address (some p) (some Source.dexscreener) t.symbol now

/-- The address list handed to `fetchDexscreenerBatchByTokens`
(fetchPrice.ts line 87): original-case contract addresses of all pending
indices. -/
def dexKeyList (cache : String → Option PriceResult) (tokens : List SheetTokenRow) :
    List String :=
  (needFetchIdx cache tokens).filterMap fun i => (tokens.get? i).map (·.contract_address)

/-- The results array after pass 1 (Dexscreener, fetchPrice.ts lines 85–95). -/
def resultsAfterDex (cache : String → Option PriceResult) (prov : Providers)
    (now : Nat) (tokens : List SheetTokenRow) : List (Option PriceResult) :=
  fillPass (dexVal tokens (prov.dexBatch (dexKeyList cache tokens)) now)
    (needFetchIdx cache tokens) (results0 cache tokens)

/-- The `(ids, idxForId)` pairs built by pass 2 (fetchPrice.ts lines 99–108):
pending indices still unresolved after Dexscreener whose token has a truthy
`coingecko_id`, paired with that id lower-cased. -/
def geckoKeyPairs (cache : String → Option PriceResult) (prov : Providers)
    (now : Nat) (tokens : List SheetTokenRow) : List (String × Nat) :=
  (needFetchIdx cache tokens).filterMap fun i =>
    if ((resultsAfterDex cache prov now tokens).getD i none).isSome then none
    else
      (tokens.get? i).bind fun t =>
        t.coingecko_id.bind fun id =>
          if jsToLower id = "" then none else some (jsToLower id, i)

/-- The `ids` list passed to `fetchCoingeckoBatchByIds`. -/
def geckoKeyList (cache : String → Option PriceResult) (prov : Providers)
    (now : Nat) (tokens : List SheetTokenRow) : List String :=
  (geckoKeyPairs cache prov now tokens).map Prod.fst

/-- The `idxForId` list of pass 2. -/
def geckoIdxList (cache : String → Option PriceResult) (prov : Providers)
    (now : Nat) (tokens : List SheetTokenRow) : List Nat :=
  (geckoKeyPairs cache prov now tokens).map Prod.snd

/-- The value pass 2's apply loop (fetchPrice.ts lines 116–124) writes into
slot `i` when the CoinGecko map has a price for the token's lower-cased id. -/
def geckoVal (tokens : List SheetTokenRow) (m : PMap) (now : Nat) (i : Nat) :
    Option PriceResult :=
  (tokens.get? i).bind fun t =>
    t.coingecko_id.bind fun id =>
      (m (jsToLower id)).map fun v =>
        toPriceResult t.chain t.contract_address (some v) (some Source.coingecko) t.symbol now

/-- The results array after pass 2 (CoinGecko).  The source's
`if (ids.length)` guard is value-irrelevant: with an empty pair list the apply
loop is vacuous. -/
def resultsAfterGecko (cache : String → Option PriceResult) (prov : Providers)
    (now : Nat) (tokens : List SheetTokenRow) : List (Option PriceResult) :=
  fillPass (geckoVal tokens (prov.geckoBatch (geckoKeyList cache prov now tokens)) now)
    (geckoIdxList cache prov now tokens) (resultsAfterDex cache prov now tokens)

/-- The `(slugs, idxForSlug)` pairs built by pass 3 (fetchPrice.ts
lines 130–139). -/
def cmcKeyPairs (cache : String → Option PriceResult) (prov : Providers)
    (now : Nat) (tokens : List SheetTokenRow) : List (String × Nat) :=
  (needFetchIdx cache tokens).filterMap fun i =>
    if ((resultsAfterGecko cache prov now tokens).getD i none).isSome then none
    else
      (tokens.get? i).bind fun t =>
        t.cmc_slug.bind fun slug =>
          if jsToLower slug = "" then none else some (jsToLower slug, i)

/-- The `slugs` list passed to `fetchCmcBatchBySlugs`. -/
def cmcKeyList (cache : String → Option PriceResult) (prov : Providers)
    (now : Nat) (tokens : List SheetTokenRow) : List String :=
  (cmcKeyPairs cache prov now tokens).map Prod.fst

/-- The `idxForSlug` list of pass 3. -/
def cmcIdxList (cache : String → Option PriceResult) (prov : Providers)
    (now : Nat) (tokens : List SheetTokenRow) : List Nat :=
  (cmcKeyPairs cache prov now tokens).map Prod.snd

/-- The value pass 3's apply loop (fetchPrice.ts lines 146–154) writes into
slot `i` when the CMC map has a price for the token's lower-cased slug. -/
def cmcVal (tokens : List SheetTokenRow) (m : PMap) (now : Nat) (i : Nat) :
    Option PriceResult :=
  (tokens.get? i).bind fun t =>
    t.cmc_slug.bind fun slug =>
      (m (jsToLower slug)).map fun v =>
        toPriceResult t.chain t.contract_address (some v) (some Source.cmc) t.symbol now

/-- The results array after pass 3 (CMC). -/
def resultsAfterCmc (cache : String → Option PriceResult) (prov : Providers)
    (now : Nat) (tokens : List SheetTokenRow) : List (Option PriceResult) :=
  fillPass (cmcVal tokens (prov.cmcBatch (cmcKeyList cache prov now tokens)) now)
    (cmcIdxList cache prov now tokens) (resultsAfterGecko cache prov now tokens)

/-- The value the final fill (fetchPrice.ts lines 159–164) writes into a slot
still empty after all passes: an explicit null-price, null-source record. -/
def fillVal (tokens : List SheetTokenRow) (now : Nat) (i : Nat) : Option PriceResult :=
  (tokens.get? i).map fun t =>
    toPriceResult t.chain t.contract_address none none t.symbol now

/-- `fetchAllPrices` from core/fetchPrice.ts.  A slot that the source leaves as
an array hole would be `none` here; the source's early return when
`needFetchIdx` is empty produces the same value (every later pass walks an
empty index list). -/
def fetchAllPrices (cache : String → Option PriceResult) (prov : Providers)
    (now : Nat) (tokens : List SheetTokenRow) : List (Option PriceResult) :=
  fillPass (fillVal tokens now) (needFetchIdx cache tokens)
    (resultsAfterCmc cache prov now tokens)

/-- The per-source counters of `summarize` (index.ts line 37). -/
structure BySource where
  dexscreener : Nat
  coingecko : Nat
  cmc : Nat
deriving DecidableEq, Repr

/-- The `totals` record of `summarize`. -/
structure Totals where
  total : Nat
  withPrice : Nat
  nulls : Nat
deriving DecidableEq, Repr

/-- The full return value of `summarize`. -/
structure Summary where
  totals : Totals
  bySource : BySource
deriving DecidableEq, Repr

/-- One iteration of the `summarize` loop (index.ts lines 39–46).  The `p &&`
truthiness guard of the source is vacuous on a list of records. -/
def tallyStep (acc : Nat × BySource) (p : PriceResult) : Nat × BySource :=
  if p.priceUsd.isSome then
    (acc.1 + 1,
      match p.source with
      | some Source.dexscreener => { acc.2 with dexscreener := acc.2.dexscreener + 1 }
      | some Source.coingecko => { acc.2 with coingecko := acc.2.coingecko + 1 }
      | some Source.cmc => { acc.2 with cmc := acc.2.cmc + 1 }
      | none => acc.2)
  else acc

/-- `summarize` from index.ts lines 36–48. -/
def summarize (prices : List PriceResult) : Summary :=
  let t := prices.foldl tallyStep (0, ⟨0, 0, 0⟩)
  { totals := { total := prices.length, withPrice := t.1, nulls := prices.length - t.1 }
    bySource := t.2 }

/-- A Dexscreener trading pair (dexscreener.ts `DexPair`), with the optional
nested objects flattened to the single field each consumer reads
(`liquidity?.usd`, `volume?.h24`, `baseToken?.address`, `quoteToken?.address`).
`priceUsd: string | number | null` is modelled as the numeric value it
coerces to. -/
structure DexPair where
  priceUsd : Option ℚ
  liquidityUsd : Option ℚ
  fdv : Option ℚ
  marketCap : Option ℚ
  volumeH24 : Option ℚ
  baseTokenAddress : Option String
  quoteTokenAddress : Option String
deriving DecidableEq, Repr

/-- JavaScript `x || y` on a nullable number: `y` when `x` is null or `0`
(falsy), else the value of `x`. -/
def jsOrQ (x : Option ℚ) (y : ℚ) : ℚ :=
  match x with
  | some v => if v = 0 then y else v
  | none => y

/-- `Number(a?.liquidity?.usd || 0)` in `pickBestPair`. -/
def liqOf (p : DexPair) : ℚ := jsOrQ p.liquidityUsd 0

/-- `Number(a?.volume?.h24 || 0)` in `pickBestPair`. -/
def volOf (p : DexPair) : ℚ := jsOrQ p.volumeH24 0

/-- `Number(a?.marketCap || a?.fdv || 0)` in `pickBestPair`: market cap when
truthy, else fdv when truthy, else 0. -/
def capOf (p : DexPair) : ℚ := jsOrQ p.marketCap (jsOrQ p.fdv 0)

/-- The comparator body of `pickBestPair` (dexscreener.ts lines 32–43),
returning the value `compare(a, b)` evaluates to. -/
def dexCmp (a b : DexPair) : ℚ :=
  if liqOf b ≠ liqOf a then liqOf b - liqOf a
  else if volOf b ≠ volOf a then volOf b - volOf a
  else capOf b - capOf a

/-- The sort order induced by `dexCmp`: `a` may precede `b` when the
comparator is non-positive.  Spelled with comparisons rather than a
subtraction (the sign of `x - y` is the comparison of `x` with `y`);
`pairLe_eq_dexCmp` proves this equal to the comparator's sign test. -/
def pairLe (a b : DexPair) : Bool :=
  if liqOf b ≠ liqOf a then decide (liqOf b ≤ liqOf a)
  else if volOf b ≠ volOf a then decide (volOf b ≤ volOf a)
  else decide (capOf b ≤ capOf a)

/-- The sort order is exactly "the source comparator returns ≤ 0 on (a, b)". -/
theorem pairLe_eq_dexCmp (a b : DexPair) : pairLe a b = decide (dexCmp a b ≤ 0) := by
  unfold pairLe dexCmp
  split_ifs <;> simp [sub_nonpos]

/-- `pickBestPair` from dexscreener.ts lines 28–44: keep the pairs with a
non-null `priceUsd`, sort by the comparator, return the first (or null when no
candidate survives).  `Array.prototype.sort` is a stable comparator sort; a
stable sort's output under a total preorder is unique, so it is modelled by
the (stable, structurally recursive) `List.insertionSort`. -/
def pickBestPair (pairs : List DexPair) : Option DexPair :=
  let candidates := pairs.filter (fun p => p.priceUsd.isSome)
  if candidates.isEmpty then none
  else (candidates.insertionSort (fun a b => pairLe a b = true)).head?

/-- The Dexscreener `latest/dex/tokens/{a,b,c}` endpoint as an oracle: the
argument is the list of addresses joined into the URL; `Except.error ()` is a
request whose retries are exhausted; `Except.ok pairs` is a 2xx–4xx response,
whose `pairs` field defaults to `[]`. -/
abbrev DexOracle := List String → Except Unit (List DexPair)

/-- `fetchDexscreenerPrice` from dexscreener.ts lines 63–71 (the single-token
endpoint): fetch the pairs for one address, pick the best, and return its
price — where `if (!best?.priceUsd) return null` also nulls a price of `0`
(falsiness).  The surrounding `pRetry` rethrows once the oracle's failure is
exhausted, so an oracle error propagates. -/
def fetchDexscreenerPrice (oracle : DexOracle) (address : String) :
    Except Unit (Option ℚ) := do
  let pairs ← oracle [address]
  match pickBestPair pairs with
  | none => pure none
  | some best =>
    match best.priceUsd with
    | none => pure none
    | some n => if n = 0 then pure none else pure (some n)

/-- Association-list lookup for the adapters' output objects. -/
def lookupA (m : List (String × Option ℚ)) (k : String) : Option (Option ℚ) :=
  (m.find? (fun e => e.1 = k)).map (·.2)

/-- Assignment `out[k] = v` on an adapter output object whose keys were
pre-filled from a de-duplicated list (so at most one binding of `k` exists and
insertion order is preserved). -/
def updA (m : List (String × Option ℚ)) (k : String) (v : Option ℚ) :
    List (String × Option ℚ) :=
  m.map (fun e => if e.1 = k then (k, v) else e)

/-- The `chunk` helper shared by coingecko.ts and cmc.ts, and the
`for (let i = 0; i < uniq.length; i += batchSize)` slicing of dexscreener.ts:
split a list into consecutive slices of `size`.  Every caller clamps
`size ≥ 1`; the `max 1` makes the recursion total without changing any
clamped call. -/
def chunkListAux (size : Nat) : Nat → List α → List (List α)
  | _, [] => []
  | 0, l => [l]
  | fuel + 1, l => l.take (max 1 size) :: chunkListAux size fuel (l.drop (max 1 size))

/-- The fuel `l.length` always suffices, since each slice removes at least one
element (`chunkList_eq` below recovers the direct recursion). -/
def chunkList (size : Nat) (l : List α) : List (List α) :=
  chunkListAux size l.length l

/-- First-occurrence de-duplication of a string list (`Array.from(new Set(…))`
in coingecko.ts / cmc.ts). -/
def dedupStr : List String → List String
  | [] => []
  | s :: rest => s :: (dedupStr rest).filter (fun x => x ≠ s)

/-- First-occurrence de-duplication by the `.key` field of the
`(original, key)` records of dexscreener.ts lines 122–124. -/
def dedupByKey : List (String × String) → List (String × String)
  | [] => []
  | r :: rest => r :: (dedupByKey rest).filter (fun x => x.2 ≠ r.2)

/-- The `req` preprocessing of dexscreener.ts lines 119–121: trim each
address, keep its trimmed original next to its lower-cased key, and drop the
entries whose trimmed original is empty (falsy). -/
def dexNormalize (addresses : List String) : List (String × String) :=
  (addresses.map (fun a => (jsTrim a, jsToLower (jsTrim a)))).filter (fun x => x.1 ≠ "")

/-- The `uniq` list of dexscreener.ts line 124. -/
def dexUniq (addresses : List String) : List (String × String) :=
  dedupByKey (dexNormalize addresses)

/-- One upstream request issued by the Dexscreener batch adapter, for the
request log: `batch` distinguishes a multi-address chunk request from a
single-address fallback request; `addrs` carries each queried address as the
`(original, lower-cased key)` pair that built the URL. -/
structure DexReq where
  batch : Bool
  addrs : List (String × String)
deriving DecidableEq, Repr

/-- The `grouped[key]` pair group of dexscreener.ts lines 145–152: response
pairs whose base or quote token address lower-cases to `key` (keys of the
current chunk only).  The source pushes a pair twice when base and quote both
match the same key; the duplicate is value-irrelevant to `pickBestPair` and is
dropped here. -/
def groupedFor (pairs : List DexPair) (key : String) : List DexPair :=
  pairs.filter (fun p =>
    jsToLower (p.baseTokenAddress.getD "") = key ∨
    jsToLower (p.quoteTokenAddress.getD "") = key)

/-- The per-chunk assignment loop of dexscreener.ts lines 155–158:
`out[c.key] = best?.priceUsd != null ? Number(best.priceUsd) : null`. -/
def assignChunk (chunk : List (String × String)) (pairs : List DexPair)
    (out : List (String × Option ℚ)) : List (String × Option ℚ) :=
  chunk.foldl (fun o c =>
    updA o c.2 ((pickBestPair (groupedFor pairs c.2)).bind (·.priceUsd))) out

/-- The fallback condition of dexscreener.ts line 162: the chunk response had
no pairs at all, or every chunk key was assigned null. -/
def fallbackNeeded (chunk : List (String × String)) (pairs : List DexPair)
    (out : List (String × Option ℚ)) : Bool :=
  pairs.isEmpty || chunk.all (fun c => (lookupA out c.2).getD none = none)

/-- The per-address fallback loop of dexscreener.ts lines 163–168: query each
chunk address individually; a price overwrites the slot, a null or an error
(swallowed by the empty catch) leaves it.  Returns the single-address request
log alongside the updated map. -/
def dexFallback (oracle : DexOracle) :
    List (String × String) → List (String × Option ℚ) →
    List DexReq × List (String × Option ℚ)
  | [], out => ([], out)
  | c :: rest, out =>
    let out1 :=
      match fetchDexscreenerPrice oracle c.1 with
      | Except.error _ => out
      | Except.ok none => out
      | Except.ok (some p) => updA out c.2 (some p)
    let step := dexFallback oracle rest out1
    ({ batch := false, addrs := [c] } :: step.1, step.2)

/-- The chunk loop of dexscreener.ts lines 130–174, over the pre-computed
chunk list: issue the chunk request (an oracle error is NOT caught here and
aborts the whole adapter, after the requests already issued), assign the
grouped prices, run the fallback when needed, and recurse. -/
def dexLoop (oracle : DexOracle) :
    List (List (String × String)) → List (String × Option ℚ) →
    List DexReq × Except Unit (List (String × Option ℚ))
  | [], out => ([], Except.ok out)
  | chunk :: rest, out =>
    match oracle (chunk.map (·.1)) with
    | Except.error e => ([{ batch := true, addrs := chunk }], Except.error e)
    | Except.ok pairs =>
      let out1 := assignChunk chunk pairs out
      let fb :=
        if fallbackNeeded chunk pairs out1 then dexFallback oracle chunk out1
        else ([], out1)
      let step := dexLoop oracle rest fb.2
      ({ batch := true, addrs := chunk } :: fb.1 ++ step.1, step.2)

/-- `fetchDexscreenerBatchByTokens` from dexscreener.ts lines 109–177,
returning the upstream request log next to its outcome: clamp the batch size
into `1..30`, normalise and de-duplicate the addresses, pre-fill every key
with null, then run the chunk loop.  `delayMs` / `timeoutMs` / `retries` do
not affect the modelled value (see the retry convention above) and are
omitted. -/
def fetchDexscreenerBatchByTokens (oracle : DexOracle) (addresses : List String)
    (batchSize? : Option Nat) :
    List DexReq × Except Unit (List (String × Option ℚ)) :=
  let batchSize := max 1 (min 30 (batchSize?.getD 30))
  let uniq := dexUniq addresses
  let out0 := uniq.map (fun r => (r.2, (none : Option ℚ)))
  dexLoop oracle (chunkList batchSize uniq) out0

/-- The CoinGecko `simple/price` endpoint as an oracle: the argument is the
chunk of ids in the URL; a response is the `data[id]?.usd` accessor. -/
abbrev GeckoOracle := List String → Except Unit (String → Option ℚ)

/-- The `uniq` list of coingecko.ts line 44 (also cmc.ts line 201): lower-case,
drop falsy (empty), de-duplicate keeping first occurrences. -/
def geckoUniq (ids : List String) : List String :=
  dedupStr ((ids.map jsToLower).filter (fun s => s ≠ ""))

/-- The per-chunk response accessor of coingecko.ts line 50–51:
`pRetry(...).catch(() => null)` turns an exhausted call into a null response,
whose `data` reads as `{}` — the constant-absent accessor. -/
def geckoData (oracle : GeckoOracle) (part : List String) : String → Option ℚ :=
  match oracle part with
  | Except.error _ => fun _ => none
  | Except.ok d => d

/-- The per-chunk write-back loop of coingecko.ts lines 52–55:
`out[id] = v != null ? Number(v) : out[id]` keeps nulls in place. -/
def geckoApplyChunk (data : String → Option ℚ) (out : List (String × Option ℚ))
    (part : List String) : List (String × Option ℚ) :=
  part.foldl (fun o id =>
    match data id with
    | some v => updA o id (some v)
    | none => o) out

/-- `fetchCoingeckoBatchByIds` from coingecko.ts lines 35–59: pre-fill every
unique id with null, then fold the chunks through their write-back loops.
Nothing in the body rethrows, so the adapter is a total function. -/
def fetchCoingeckoBatchByIds (oracle : GeckoOracle) (ids : List String)
    (batchSize? : Option Nat) : List (String × Option ℚ) :=
  let batchSize := max 1 (min 250 (batchSize?.getD 150))
  let uniq := geckoUniq ids
  let out0 := uniq.map (fun id => (id, (none : Option ℚ)))
  (chunkList batchSize uniq).foldl
    (fun out part => geckoApplyChunk (geckoData oracle part) out part) out0

/-- The chunk requests the CoinGecko adapter issues (one per chunk of the
de-duplicated id list); the oracle does not influence them. -/
def geckoRequests (ids : List String) (batchSize? : Option Nat) : List (List String) :=
  chunkList (max 1 (min 250 (batchSize?.getD 150))) (geckoUniq ids)

/-- The per-window write-back loop of cmc.ts lines 205–212:
`out[part[j]] = results[j]` writes every window result back
unconditionally. -/
def cmcApplyChunk (lookup : String → Option ℚ) (out : List (String × Option ℚ))
    (part : List String) : List (String × Option ℚ) :=
  part.foldl (fun o slug => updA o slug (lookup slug)) out

/-- `fetchCmcBatchBySlugs` from cmc.ts lines 193–215.  `fetchCmcPriceBySlug`
returns `number | null` and never rejects (every await in its body sits under
a try/catch), so it is abstracted as a total per-slug lookup; `concurrency`
only sizes the `Promise.all` windows. -/
def fetchCmcBatchBySlugs (lookup : String → Option ℚ) (slugs : List String)
    (concurrency? : Option Nat) : List (String × Option ℚ) :=
  let concurrency := max 1 (min 10 (concurrency?.getD 4))
  let uniq := geckoUniq slugs
  let out0 := uniq.map (fun s => (s, (none : Option ℚ)))
  (chunkList concurrency uniq).foldl
    (fun out part => cmcApplyChunk lookup out part) out0

/-- The per-slug upstream lookups the CMC adapter issues: one
`fetchCmcPriceBySlug` call per de-duplicated slug. -/
def cmcRequests (slugs : List String) : List String :=
  geckoUniq slugs

/-- Indexing helper: `getD` through `set` at a different index. -/
theorem getD_set_of_ne (l : List (Option PriceResult)) (i j : Nat)
    (v : Option PriceResult) (h : i ≠ j) : (l.set i v).getD j none = l.getD j none := by
  simp [List.getD_eq_getElem?_getD, List.getElem?_set_ne h]

/-- Indexing helper: `getD` through `set` at the written index. -/
theorem getD_set_self (l : List (Option PriceResult)) (i : Nat)
    (v : Option PriceResult) (h : i < l.length) : (l.set i v).getD i none = v := by
  rcases List.getElem?_eq_some_iff.mpr ⟨h, rfl⟩ with hv
  simp [List.getD_eq_getElem?_getD, List.getElem?_set_self', hv]

theorem fillStep_length (val : Nat → Option PriceResult) (r : List (Option PriceResult))
    (i : Nat) : (fillStep val r i).length = r.length := by
  unfold fillStep
  split
  · rfl
  · cases val i <;> simp

/-- A slot already holding a record is untouched by a fill step. -/
theorem fillStep_preserve (val : Nat → Option PriceResult) (r : List (Option PriceResult))
    (i j : Nat) (x : PriceResult) (h : r.getD j none = some x) :
    (fillStep val r i).getD j none = some x := by
  unfold fillStep
  by_cases hg : (r.getD i none).isSome
  · rw [if_pos hg]; exact h
  · rw [if_neg hg]
    cases hv : val i with
    | none => exact h
    | some v =>
      show (r.set i (some v)).getD j none = some x
      rcases eq_or_ne i j with rfl | hne
      · rw [h] at hg; simp at hg
      · rw [getD_set_of_ne _ _ _ _ hne]; exact h

/-- Any record present after a fill step was present before, or is the step's
own freshly computed value at the step's index. -/
theorem fillStep_cases (val : Nat → Option PriceResult) (r : List (Option PriceResult))
    (i j : Nat) (x : PriceResult) (h : (fillStep val r i).getD j none = some x) :
    r.getD j none = some x ∨ (j = i ∧ val i = some x) := by
  unfold fillStep at h
  by_cases hg : (r.getD i none).isSome
  · rw [if_pos hg] at h; exact Or.inl h
  · rw [if_neg hg] at h
    cases hv : val i with
    | none => simp only [hv] at h; exact Or.inl h
    | some v =>
      simp only [hv] at h
      rcases eq_or_ne i j with rfl | hne
      · by_cases hlen : i < r.length
        · rw [getD_set_self _ _ _ hlen] at h
          exact Or.inr ⟨rfl, h⟩
        · rw [List.set_eq_of_length_le (Nat.le_of_not_lt hlen)] at h
          exact Or.inl h
      · rw [getD_set_of_ne _ _ _ _ hne] at h
        exact Or.inl h

theorem fillPass_length (val : Nat → Option PriceResult) (idxs : List Nat)
    (res : List (Option PriceResult)) : (fillPass val idxs res).length = res.length := by
  induction idxs generalizing res with
  | nil => rfl
  | cons i rest ih =>
    simp only [fillPass, List.foldl_cons] at *
    rw [ih, fillStep_length]

/-- A slot already holding a record is untouched by a whole filling loop. -/
theorem fillPass_preserve (val : Nat → Option PriceResult) (idxs : List Nat)
    (res : List (Option PriceResult)) (j : Nat) (x : PriceResult)
    (h : res.getD j none = some x) : (fillPass val idxs res).getD j none = some x := by
  induction idxs generalizing res with
  | nil => exact h
  | cons i rest ih =>
    simp only [fillPass, List.foldl_cons] at *
    exact ih _ (fillStep_preserve _ _ _ _ _ h)

/-- Any record present after a filling loop was present before the loop, or is
the loop's value function evaluated at its own (listed) index. -/
theorem fillPass_cases (val : Nat → Option PriceResult) (idxs : List Nat)
    (res : List (Option PriceResult)) (j : Nat) (x : PriceResult)
    (h : (fillPass val idxs res).getD j none = some x) :
    res.getD j none = some x ∨ (j ∈ idxs ∧ val j = some x) := by
  induction idxs generalizing res with
  | nil => exact Or.inl h
  | cons i rest ih =>
    simp only [fillPass, List.foldl_cons] at h
    rcases ih _ h with hstep | ⟨hmem, hval⟩
    · rcases fillStep_cases _ _ _ _ _ hstep with hold | ⟨rfl, hval⟩
      · exact Or.inl hold
      · exact Or.inr ⟨List.mem_cons_self _ _, hval⟩
    · exact Or.inr ⟨List.mem_cons_of_mem _ hmem, hval⟩

/-- A listed, in-range index whose value function produces a record holds some
record after the loop. -/
theorem fillPass_fills (val : Nat → Option PriceResult) (idxs : List Nat)
    (res : List (Option PriceResult)) (i : Nat) (hmem : i ∈ idxs)
    (hval : (val i).isSome) (hlen : i < res.length) :
    ((fillPass val idxs res).getD i none).isSome := by
  induction idxs generalizing res with
  | nil => cases hmem
  | cons j rest ih =>
    simp only [fillPass, List.foldl_cons]
    rcases List.mem_cons.mp hmem with rfl | hrest
    · have hstep : ∃ x, (fillStep val res i).getD i none = some x := by
        unfold fillStep
        by_cases hg : (res.getD i none).isSome
        · rw [if_pos hg]; exact Option.isSome_iff_exists.mp hg
        · rw [if_neg hg]
          cases hv : val i with
          | none => rw [hv] at hval; cases hval
          | some v => exact ⟨v, getD_set_self res i (some v) hlen⟩
      rcases hstep with ⟨x, hx⟩
      have hkeep : (fillPass val rest (fillStep val res i)).getD i none = some x :=
        fillPass_preserve _ _ _ _ _ hx
      show ((fillPass val rest (fillStep val res i)).getD i none).isSome = true
      rw [hkeep]; rfl
    · exact ih _ hrest (by rw [fillStep_length]; exact hlen)

/-- A loop whose value function never produces a record is the identity. -/
theorem fillPass_noop (val : Nat → Option PriceResult) (idxs : List Nat)
    (res : List (Option PriceResult)) (h : ∀ i ∈ idxs, val i = none) :
    fillPass val idxs res = res := by
  induction idxs generalizing res with
  | nil => rfl
  | cons i rest ih =>
    simp only [fillPass, List.foldl_cons]
    have hstep : fillStep val res i = res := by
      unfold fillStep
      split
      · rfl
      · rw [h i (List.mem_cons_self _ _)]
    rw [hstep]
    exact ih _ (fun j hj => h j (List.mem_cons_of_mem _ hj))

theorem results0_length (cache : String → Option PriceResult)
    (tokens : List SheetTokenRow) : (results0 cache tokens).length = tokens.length := by
  simp [results0]

/-- The cache-pass slot of a valid index is exactly its cache lookup. -/
theorem results0_getD (cache : String → Option PriceResult)
    (tokens : List SheetTokenRow) (i : Nat) (t : SheetTokenRow)
    (h : tokens.get? i = some t) :
    (results0 cache tokens).getD i none = cache (cacheKey t.chain t.contract_address) := by
  rw [List.get?_eq_getElem?] at h
  simp [results0, List.getD_eq_getElem?_getD, List.getElem?_map, h]

theorem mem_needFetchIdx (cache : String → Option PriceResult)
    (tokens : List SheetTokenRow) (i : Nat) :
    i ∈ needFetchIdx cache tokens ↔
      i < tokens.length ∧ (results0 cache tokens).getD i none = none := by
  simp [needFetchIdx, List.mem_filter, List.mem_range, Option.isNone_iff_eq_none]

theorem nodup_needFetchIdx (cache : String → Option PriceResult)
    (tokens : List SheetTokenRow) : (needFetchIdx cache tokens).Nodup :=
  (List.nodup_range _).filter _

/-- If the cache pass filled a slot, every later stage leaves it untouched. -/
theorem fetchAllPrices_preserve (cache : String → Option PriceResult) (prov : Providers)
    (now : Nat) (tokens : List SheetTokenRow) (i : Nat) (x : PriceResult)
    (h : (results0 cache tokens).getD i none = some x) :
    (fetchAllPrices cache prov now tokens).getD i none = some x := by
  unfold fetchAllPrices resultsAfterCmc resultsAfterGecko resultsAfterDex
  exact fillPass_preserve _ _ _ _ _ (fillPass_preserve _ _ _ _ _
    (fillPass_preserve _ _ _ _ _ (fillPass_preserve _ _ _ _ _ h)))

theorem fetchAllPrices_length (cache : String → Option PriceResult) (prov : Providers)
    (now : Nat) (tokens : List SheetTokenRow) :
    (fetchAllPrices cache prov now tokens).length = tokens.length := by
  unfold fetchAllPrices resultsAfterCmc resultsAfterGecko resultsAfterDex
  rw [fillPass_length, fillPass_length, fillPass_length, fillPass_length, results0_length]

/-- Every record in the final array is a cache-pass record or the value one of
the four filling passes computed at that index. -/
theorem fetchAllPrices_cases (cache : String → Option PriceResult) (prov : Providers)
    (now : Nat) (tokens : List SheetTokenRow) (i : Nat) (r : PriceResult)
    (h : (fetchAllPrices cache prov now tokens).getD i none = some r) :
    (results0 cache tokens).getD i none = some r
    ∨ dexVal tokens (prov.dexBatch (dexKeyList cache tokens)) now i = some r
    ∨ geckoVal tokens (prov.geckoBatch (geckoKeyList cache prov now tokens)) now i = some r
    ∨ cmcVal tokens (prov.cmcBatch (cmcKeyList cache prov now tokens)) now i = some r
    ∨ fillVal tokens now i = some r := by
  unfold fetchAllPrices at h
  rcases fillPass_cases _ _ _ _ _ h with h3 | ⟨_, hv⟩
  · unfold resultsAfterCmc at h3
    rcases fillPass_cases _ _ _ _ _ h3 with h2 | ⟨_, hv⟩
    · unfold resultsAfterGecko at h2
      rcases fillPass_cases _ _ _ _ _ h2 with h1 | ⟨_, hv⟩
      · unfold resultsAfterDex at h1
        rcases fillPass_cases _ _ _ _ _ h1 with h0 | ⟨_, hv⟩
        · exact Or.inl h0
        · exact Or.inr (Or.inl hv)
      · exact Or.inr (Or.inr (Or.inl hv))
    · exact Or.inr (Or.inr (Or.inr (Or.inl hv)))
  · exact Or.inr (Or.inr (Or.inr (Or.inr hv)))

/-- Unpacking a successful Dexscreener-pass write. -/
theorem dexVal_some (tokens : List SheetTokenRow) (m : PMap) (now : Nat) (i : Nat)
    (r : PriceResult) (h : dexVal tokens m now i = some r) :
    ∃ t p, tokens.get? i = some t ∧ m (jsToLower t.contract_address) = some p ∧
      r = toPriceResult t.chain t.contract_address (some p) (some Source.dexscreener)
            t.symbol now := by
  simp only [dexVal, Option.bind_eq_some, Option.map_eq_some'] at h
  obtain ⟨t, ht, p, hp, hr⟩ := h
  exact ⟨t, p, ht, hp, hr.symm⟩

/-- Unpacking a successful CoinGecko-pass write. -/
theorem geckoVal_some (tokens : List SheetTokenRow) (m : PMap) (now : Nat) (i : Nat)
    (r : PriceResult) (h : geckoVal tokens m now i = some r) :
    ∃ t id v, tokens.get? i = some t ∧ t.coingecko_id = some id ∧
      m (jsToLower id) = some v ∧
      r = toPriceResult t.chain t.contract_address (some v) (some Source.coingecko)
            t.symbol now := by
  simp only [geckoVal, Option.bind_eq_some, Option.map_eq_some'] at h
  obtain ⟨t, ht, id, hid, v, hv, hr⟩ := h
  exact ⟨t, id, v, ht, hid, hv, hr.symm⟩

/-- Unpacking a successful CMC-pass write. -/
theorem cmcVal_some (tokens : List SheetTokenRow) (m : PMap) (now : Nat) (i : Nat)
    (r : PriceResult) (h : cmcVal tokens m now i = some r) :
    ∃ t slug v, tokens.get? i = some t ∧ t.cmc_slug = some slug ∧
      m (jsToLower slug) = some v ∧
      r = toPriceResult t.chain t.contract_address (some v) (some Source.cmc)
            t.symbol now := by
  simp only [cmcVal, Option.bind_eq_some, Option.map_eq_some'] at h
  obtain ⟨t, ht, slug, hslug, v, hv, hr⟩ := h
  exact ⟨t, slug, v, ht, hslug, hv, hr.symm⟩

/-- Unpacking a final-fill write. -/
theorem fillVal_some (tokens : List SheetTokenRow) (now : Nat) (i : Nat)
    (r : PriceResult) (h : fillVal tokens now i = some r) :
    ∃ t, tokens.get? i = some t ∧
      r = toPriceResult t.chain t.contract_address none none t.symbol now := by
  simp only [fillVal, Option.map_eq_some'] at h
  obtain ⟨t, ht, hr⟩ := h
  exact ⟨t, ht, hr.symm⟩

theorem resultsAfterCmc_length (cache : String → Option PriceResult) (prov : Providers)
    (now : Nat) (tokens : List SheetTokenRow) :
    (resultsAfterCmc cache prov now tokens).length = tokens.length := by
  unfold resultsAfterCmc resultsAfterGecko resultsAfterDex
  rw [fillPass_length, fillPass_length, fillPass_length, results0_length]

/-- With a cache that always misses, the cache pass produces no record. -/
theorem results0_getD_none (cache : String → Option PriceResult)
    (tokens : List SheetTokenRow) (i : Nat) (hcache : ∀ k, cache k = none) :
    (results0 cache tokens).getD i none = none := by
  simp only [results0, List.getD_eq_getElem?_getD, List.getElem?_map]
  cases tokens[i]? with
  | none => rfl
  | some t => simp [hcache]

/-- C1: for every input list of N TokenRefs, `fetchAllPrices` returns a list
of exactly N slots; every slot is populated (no missing/undefined entry); a
populated slot's record carries the chain of its own input token and its
lower-cased address (for cache-served slots this uses the system invariant
that a cached record under `cacheKey(chain, address)` was stored for that
chain and lower-cased address, which is how `storeResults` writes them); and
when the cache misses everywhere and every provider yields unknown for every
key, every slot holds a record with unknown price and unknown source. -/
theorem c1_fetchAllPrices_order_populated_degradation
    (cache : String → Option PriceResult) (prov : Providers) (now : Nat)
    (tokens : List SheetTokenRow) :
    (fetchAllPrices cache prov now tokens).length = tokens.length
    ∧ (∀ i, i < tokens.length →
        ((fetchAllPrices cache prov now tokens).getD i none).isSome = true)
    ∧ ((∀ ch ad r, cache (cacheKey ch ad) = some r →
          r.chain = ch ∧ r.address = jsToLower ad) →
        ∀ i t r, tokens.get? i = some t →
          (fetchAllPrices cache prov now tokens).getD i none = some r →
          r.chain = t.chain ∧ r.address = jsToLower t.contract_address)
    ∧ (((∀ k, cache k = none) ∧ (∀ l k, prov.dexBatch l k = none) ∧
        (∀ l k, prov.geckoBatch l k = none) ∧ (∀ l k, prov.cmcBatch l k = none)) →
        ∀ i r, (fetchAllPrices cache prov now tokens).getD i none = some r →
          r.priceUsd = none ∧ r.source = none) := by
  refine ⟨fetchAllPrices_length cache prov now tokens, ?_, ?_, ?_⟩
  · intro i hi
    cases h0 : (results0 cache tokens).getD i none with
    | some x =>
      rw [fetchAllPrices_preserve cache prov now tokens i x h0]; rfl
    | none =>
      have hmem : i ∈ needFetchIdx cache tokens :=
        (mem_needFetchIdx cache tokens i).mpr ⟨hi, h0⟩
      have ht : tokens.get? i = some (tokens.get ⟨i, hi⟩) := List.get?_eq_get hi
      unfold fetchAllPrices
      refine fillPass_fills _ _ _ _ hmem ?_ ?_
      · have ht2 : tokens[i]? = some (tokens.get ⟨i, hi⟩) := by
          rw [← List.get?_eq_getElem?]; exact ht
        simp [fillVal, List.get?_eq_getElem?, ht2]
      · rw [resultsAfterCmc_length]; exact hi
  · intro hcoh i t r ht hr
    rcases fetchAllPrices_cases cache prov now tokens i r hr with
      h0 | hd | hg | hc | hf
    · rw [results0_getD cache tokens i t ht] at h0
      exact hcoh t.chain t.contract_address r h0
    · obtain ⟨t2, p, ht2, _, hr2⟩ := dexVal_some _ _ _ _ _ hd
      rw [ht] at ht2
      cases ht2
      rw [hr2]; exact ⟨rfl, rfl⟩
    · obtain ⟨t2, id, v, ht2, _, _, hr2⟩ := geckoVal_some _ _ _ _ _ hg
      rw [ht] at ht2
      cases ht2
      rw [hr2]; exact ⟨rfl, rfl⟩
    · obtain ⟨t2, slug, v, ht2, _, _, hr2⟩ := cmcVal_some _ _ _ _ _ hc
      rw [ht] at ht2
      cases ht2
      rw [hr2]; exact ⟨rfl, rfl⟩
    · obtain ⟨t2, ht2, hr2⟩ := fillVal_some _ _ _ _ hf
      rw [ht] at ht2
      cases ht2
      rw [hr2]; exact ⟨rfl, rfl⟩
  · rintro ⟨hc, hd, hg, hm⟩ i r hr
    rcases fetchAllPrices_cases cache prov now tokens i r hr with
      h0 | hdx | hgx | hcx | hf
    · rw [results0_getD_none cache tokens i hc] at h0; cases h0
    · obtain ⟨t2, p, _, hp, _⟩ := dexVal_some _ _ _ _ _ hdx
      rw [hd] at hp; cases hp
    · obtain ⟨t2, id, v, _, _, hp, _⟩ := geckoVal_some _ _ _ _ _ hgx
      rw [hg] at hp; cases hp
    · obtain ⟨t2, slug, v, _, _, hp, _⟩ := cmcVal_some _ _ _ _ _ hcx
      rw [hm] at hp; cases hp
    · obtain ⟨t2, _, hr2⟩ := fillVal_some _ _ _ _ hf
      rw [hr2]; exact ⟨rfl, by simp [toPriceResult]⟩

/-- An always-missing cache for concrete instantiations. -/
def emptyCache : String → Option PriceResult := fun _ => none

/-- Providers that resolve nothing, for concrete instantiations. -/
def noProviders : Providers :=
  ⟨fun _ _ => none, fun _ _ => none, fun _ _ => none⟩

/-- A one-token input for concrete instantiations. -/
def oneToken : List SheetTokenRow :=
  [⟨"eth", "0xAb", some "TKN", some "tok", some "tok"⟩]

/-- Witness for C1 at a concrete one-token input with empty cache and
all-unknown providers: one slot, populated, for the right token, with unknown
price and source. -/
theorem c1_witness :
    (fetchAllPrices emptyCache noProviders 0 oneToken).length = 1
    ∧ ((fetchAllPrices emptyCache noProviders 0 oneToken).getD 0 none).isSome = true
    ∧ ((fetchAllPrices emptyCache noProviders 0 oneToken).getD 0 none).map PriceResult.chain
        = some "eth"
    ∧ ((fetchAllPrices emptyCache noProviders 0 oneToken).getD 0 none).map PriceResult.address
        = some "0xab"
    ∧ ((fetchAllPrices emptyCache noProviders 0 oneToken).getD 0 none).map PriceResult.priceUsd
        = some none
    ∧ ((fetchAllPrices emptyCache noProviders 0 oneToken).getD 0 none).map PriceResult.source
        = some none := by
  have h := c1_fetchAllPrices_order_populated_degradation emptyCache noProviders 0 oneToken
  have hcoh : ∀ ch ad r, emptyCache (cacheKey ch ad) = some r →
      r.chain = ch ∧ r.address = jsToLower ad :=
    fun ch ad r hx => Option.noConfusion hx
  have hslot : (fetchAllPrices emptyCache noProviders 0 oneToken).getD 0 none
      = some (toPriceResult "eth" "0xAb" none none (some "TKN") 0) := by decide
  have hfields := h.2.2.1 hcoh 0 ⟨"eth", "0xAb", some "TKN", some "tok", some "tok"⟩
    (toPriceResult "eth" "0xAb" none none (some "TKN") 0) rfl hslot
  have hdeg := h.2.2.2 ⟨fun k => rfl, fun l k => rfl, fun l k => rfl, fun l k => rfl⟩ 0
    (toPriceResult "eth" "0xAb" none none (some "TKN") 0) hslot
  refine ⟨h.1, h.2.1 0 (by decide), ?_, ?_, ?_, ?_⟩
  · rw [hslot, Option.map_some', hfields.1]
  · rw [hslot, Option.map_some', hfields.2]; decide
  · rw [hslot, Option.map_some', hdeg.1]
  · rw [hslot, Option.map_some', hdeg.2]

/-- C2 counterexample: calling the normalizer with a non-null price and a null
source yields a record whose source is unknown while its price is known, so
"source is unknown iff priceUsd is unknown for any inputs to toPriceResult" is
false. -/
theorem c2_counterexample :
    ¬((toPriceResult "e" "a" (some 1) none none 0).source = none ↔
      (toPriceResult "e" "a" (some 1) none none 0).priceUsd = none) := by
  decide

/-- C2 (amended): the normalizer forces `source` to unknown whenever the price
is unknown, whatever source was passed; and every freshly computed slot of
`fetchAllPrices` (one whose cache lookup missed) satisfies the full
equivalence, because each pipeline write pairs a known price with a known
source, and the final fill pairs unknown with unknown. -/
theorem c2_source_price_consistency
    (cache : String → Option PriceResult) (prov : Providers) (now : Nat)
    (tokens : List SheetTokenRow) :
    (∀ chain address source symbol now2,
      (toPriceResult chain address none source symbol now2).source = none)
    ∧ (∀ i r, (results0 cache tokens).getD i none = none →
        (fetchAllPrices cache prov now tokens).getD i none = some r →
        (r.source = none ↔ r.priceUsd = none)) := by
  constructor
  · intro chain address source symbol now2
    simp [toPriceResult]
  · intro i r h0 hr
    rcases fetchAllPrices_cases cache prov now tokens i r hr with
      hcc | hd | hg | hc | hf
    · rw [h0] at hcc; cases hcc
    · obtain ⟨t, p, _, _, hr2⟩ := dexVal_some _ _ _ _ _ hd
      rw [hr2]; simp [toPriceResult]
    · obtain ⟨t, id, v, _, _, _, hr2⟩ := geckoVal_some _ _ _ _ _ hg
      rw [hr2]; simp [toPriceResult]
    · obtain ⟨t, slug, v, _, _, _, hr2⟩ := cmcVal_some _ _ _ _ _ hc
      rw [hr2]; simp [toPriceResult]
    · obtain ⟨t, _, hr2⟩ := fillVal_some _ _ _ _ hf
      rw [hr2]; simp [toPriceResult]

/-- Witness for C2 at concrete inputs: a null-price normalization gets a null
source even though a source was passed, and the concrete fresh slot of the C1
scenario satisfies the equivalence. -/
theorem c2_witness :
    (toPriceResult "e" "a" none (some Source.cmc) none 7).source = none
    ∧ (((fetchAllPrices emptyCache noProviders 0 oneToken).getD 0 none).map
          PriceResult.source = some none
        ↔ ((fetchAllPrices emptyCache noProviders 0 oneToken).getD 0 none).map
          PriceResult.priceUsd = some none) := by
  have h := c2_source_price_consistency emptyCache noProviders 0 oneToken
  refine ⟨h.1 "e" "a" (some Source.cmc) none 7, ?_⟩
  have hslot : (fetchAllPrices emptyCache noProviders 0 oneToken).getD 0 none
      = some (toPriceResult "eth" "0xAb" none none (some "TKN") 0) := by decide
  have hiff := h.2 0 (toPriceResult "eth" "0xAb" none none (some "TKN") 0)
    (by decide) hslot
  rw [hslot, Option.map_some', Option.map_some']
  constructor
  · intro hx; exact congrArg some (hiff.mp (Option.some.inj hx))
  · intro hx; exact congrArg some (hiff.mpr (Option.some.inj hx))

/-- The running total of `withPrice` accumulated by the `summarize` loop. -/
theorem tally_fst (prices : List PriceResult) (acc : Nat × BySource) :
    (prices.foldl tallyStep acc).1
      = acc.1 + prices.countP (fun p => p.priceUsd.isSome) := by
  induction prices generalizing acc with
  | nil => simp
  | cons p rest ih =>
    rw [List.foldl_cons, ih, List.countP_cons]
    unfold tallyStep
    by_cases hp : p.priceUsd.isSome
    · simp only [hp, if_true]
      omega
    · simp [hp]

/-- The per-source counters of the `summarize` loop sum to the priced count,
as long as no priced entry carries a null source. -/
theorem tally_sum (prices : List PriceResult) (acc : Nat × BySource)
    (h : ∀ p ∈ prices, p.priceUsd.isSome = true → p.source ≠ none) :
    (prices.foldl tallyStep acc).2.dexscreener
      + (prices.foldl tallyStep acc).2.coingecko
      + (prices.foldl tallyStep acc).2.cmc
    = acc.2.dexscreener + acc.2.coingecko + acc.2.cmc
      + prices.countP (fun p => p.priceUsd.isSome) := by
  induction prices generalizing acc with
  | nil => simp
  | cons p rest ih =>
    rw [List.foldl_cons, List.countP_cons,
      ih _ (fun q hq => h q (List.mem_cons_of_mem _ hq))]
    unfold tallyStep
    by_cases hp : p.priceUsd.isSome
    · rcases hs : p.source with _ | s
      · exact absurd hs (h p (List.mem_cons_self _ _) hp)
      · cases s <;> simp [hp, hs] <;> omega
    · simp [hp]

/-- C10: `summarize` reports `total` as the list length, `withPrice` as the
number of entries with a known price, `nulls` as their difference, and — when
every priced entry carries one of the three source tags — the three per-source
counters sum exactly to `withPrice`. -/
theorem c10_summarize_totals (prices : List PriceResult) :
    (summarize prices).totals.total = prices.length
    ∧ (summarize prices).totals.withPrice
        = prices.countP (fun p => p.priceUsd.isSome)
    ∧ (summarize prices).totals.nulls
        = prices.length - prices.countP (fun p => p.priceUsd.isSome)
    ∧ ((∀ p ∈ prices, p.priceUsd.isSome = true → p.source ≠ none) →
        (summarize prices).bySource.dexscreener + (summarize prices).bySource.coingecko
          + (summarize prices).bySource.cmc
        = (summarize prices).totals.withPrice) := by
  have hfst := tally_fst prices (0, ⟨0, 0, 0⟩)
  refine ⟨rfl, ?_, ?_, ?_⟩
  · show (prices.foldl tallyStep (0, ⟨0, 0, 0⟩)).1 = _
    rw [hfst]; omega
  · show prices.length - (prices.foldl tallyStep (0, ⟨0, 0, 0⟩)).1 = _
    rw [hfst]; simp
  · intro h
    have hsum := tally_sum prices (0, ⟨0, 0, 0⟩) h
    show (prices.foldl tallyStep (0, ⟨0, 0, 0⟩)).2.dexscreener
        + (prices.foldl tallyStep (0, ⟨0, 0, 0⟩)).2.coingecko
        + (prices.foldl tallyStep (0, ⟨0, 0, 0⟩)).2.cmc
      = (prices.foldl tallyStep (0, ⟨0, 0, 0⟩)).1
    rw [hsum, hfst]; simp

/-- A concrete two-entry price list: one Dexscreener-priced entry, one
unknown entry. -/
def samplePrices : List PriceResult :=
  [⟨"eth", "0xaa", none, some 2, some Source.dexscreener, 0⟩,
   ⟨"bsc", "0xbb", none, none, none, 0⟩]

/-- Witness for C10 on the concrete two-entry list. -/
theorem c10_witness :
    (summarize samplePrices).totals.total = 2
    ∧ (summarize samplePrices).totals.withPrice = 1
    ∧ (summarize samplePrices).totals.nulls = 1
    ∧ (summarize samplePrices).bySource.dexscreener
        + (summarize samplePrices).bySource.coingecko
        + (summarize samplePrices).bySource.cmc
      = (summarize samplePrices).totals.withPrice := by
  have h := c10_summarize_totals samplePrices
  refine ⟨h.1, ?_, ?_, h.2.2.2 (by decide)⟩
  · rw [h.2.1]; decide
  · rw [h.2.2.1]; decide

/-- Unpacking membership in the CoinGecko pass's `(id, index)` pair list. -/
theorem geckoKeyPairs_mem (cache : String → Option PriceResult) (prov : Providers)
    (now : Nat) (tokens : List SheetTokenRow) (s : String) (i : Nat)
    (h : (s, i) ∈ geckoKeyPairs cache prov now tokens) :
    i ∈ needFetchIdx cache tokens
    ∧ ((resultsAfterDex cache prov now tokens).getD i none).isSome = false
    ∧ ∃ t id, tokens.get? i = some t ∧ t.coingecko_id = some id
        ∧ jsToLower id ≠ "" ∧ s = jsToLower id := by
  rw [geckoKeyPairs, List.mem_filterMap] at h
  obtain ⟨j, hj, hf⟩ := h
  by_cases hslot : ((resultsAfterDex cache prov now tokens).getD j none).isSome
  · rw [if_pos hslot] at hf; cases hf
  · rw [if_neg hslot] at hf
    simp only [Option.bind_eq_some] at hf
    obtain ⟨t, ht, id, hid, hf⟩ := hf
    by_cases hemp : jsToLower id = ""
    · rw [if_pos hemp] at hf; cases hf
    · rw [if_neg hemp] at hf
      injection hf with hf
      injection hf with hs hi
      subst hi
      subst hs
      exact ⟨hj, Bool.eq_false_iff.mpr hslot, t, id, ht, hid, hemp, rfl⟩

/-- Unpacking membership in the CMC pass's `(slug, index)` pair list. -/
theorem cmcKeyPairs_mem (cache : String → Option PriceResult) (prov : Providers)
    (now : Nat) (tokens : List SheetTokenRow) (s : String) (i : Nat)
    (h : (s, i) ∈ cmcKeyPairs cache prov now tokens) :
    i ∈ needFetchIdx cache tokens
    ∧ ((resultsAfterGecko cache prov now tokens).getD i none).isSome = false
    ∧ ∃ t slug, tokens.get? i = some t ∧ t.cmc_slug = some slug
        ∧ jsToLower slug ≠ "" ∧ s = jsToLower slug := by
  rw [cmcKeyPairs, List.mem_filterMap] at h
  obtain ⟨j, hj, hf⟩ := h
  by_cases hslot : ((resultsAfterGecko cache prov now tokens).getD j none).isSome
  · rw [if_pos hslot] at hf; cases hf
  · rw [if_neg hslot] at hf
    simp only [Option.bind_eq_some] at hf
    obtain ⟨t, ht, slug, hslug, hf⟩ := hf
    by_cases hemp : jsToLower slug = ""
    · rw [if_pos hemp] at hf; cases hf
    · rw [if_neg hemp] at hf
      injection hf with hf
      injection hf with hs hi
      subst hi
      subst hs
      exact ⟨hj, Bool.eq_false_iff.mpr hslot, t, slug, ht, hslug, hemp, rfl⟩

/-- C3 (amended): a token whose price the Dexscreener pass resolved is never
consulted in the CoinGecko or CMC passes: its index is on neither pass's
consultation list; and its CoinGecko id (resp. CMC slug) is absent from the
corresponding adapter key list provided no other token carries the same
normalized id (resp. slug) — the key lists are shared across tokens, so a
duplicate identifier on another still-pending token can still put the string
in the list. -/
theorem c3_priority_resolved_not_reconsulted
    (cache : String → Option PriceResult) (prov : Providers) (now : Nat)
    (tokens : List SheetTokenRow) (i : Nat) (t : SheetTokenRow)
    (ht : tokens.get? i = some t)
    (hres : ((resultsAfterDex cache prov now tokens).getD i none).isSome = true) :
    (i ∉ geckoIdxList cache prov now tokens ∧ i ∉ cmcIdxList cache prov now tokens)
    ∧ (∀ s, t.coingecko_id = some s →
        (∀ j u, j ≠ i → tokens.get? j = some u →
          u.coingecko_id.map jsToLower ≠ some (jsToLower s)) →
        jsToLower s ∉ geckoKeyList cache prov now tokens)
    ∧ (∀ s, t.cmc_slug = some s →
        (∀ j u, j ≠ i → tokens.get? j = some u →
          u.cmc_slug.map jsToLower ≠ some (jsToLower s)) →
        jsToLower s ∉ cmcKeyList cache prov now tokens) := by
  obtain ⟨x, hx⟩ := Option.isSome_iff_exists.mp hres
  have hxg : (resultsAfterGecko cache prov now tokens).getD i none = some x := by
    unfold resultsAfterGecko
    exact fillPass_preserve _ _ _ _ _ hx
  refine ⟨⟨?_, ?_⟩, ?_, ?_⟩
  · intro hmem
    obtain ⟨p, hp, hpi⟩ := List.mem_map.mp hmem
    obtain ⟨s, j⟩ := p
    cases hpi
    have := (geckoKeyPairs_mem cache prov now tokens s j hp).2.1
    rw [hx] at this
    cases this
  · intro hmem
    obtain ⟨p, hp, hpi⟩ := List.mem_map.mp hmem
    obtain ⟨s, j⟩ := p
    cases hpi
    have := (cmcKeyPairs_mem cache prov now tokens s j hp).2.1
    rw [hxg] at this
    cases this
  · intro s hs hothers hmem
    obtain ⟨p, hp, hpk⟩ := List.mem_map.mp hmem
    obtain ⟨k, j⟩ := p
    cases hpk
    obtain ⟨_, hjslot, u, id, hu, hid, _, hkid⟩ :=
      geckoKeyPairs_mem cache prov now tokens _ j hp
    have hji : j ≠ i := by
      intro hji
      rw [hji, hx] at hjslot
      cases hjslot
    exact hothers j u hji hu (by rw [hid, Option.map_some', ← hkid]; rfl)
  · intro s hs hothers hmem
    obtain ⟨p, hp, hpk⟩ := List.mem_map.mp hmem
    obtain ⟨k, j⟩ := p
    cases hpk
    obtain ⟨_, hjslot, u, slug, hu, hslug, _, hkid⟩ :=
      cmcKeyPairs_mem cache prov now tokens _ j hp
    have hji : j ≠ i := by
      intro hji
      rw [hji, hxg] at hjslot
      cases hjslot
    exact hothers j u hji hu (by rw [hslug, Option.map_some', ← hkid]; rfl)

/-- Two tokens sharing the CoinGecko id "s"; Dexscreener resolves only the
first one's address. -/
def sharedIdTokens : List SheetTokenRow :=
  [⟨"e", "a", none, some "s", none⟩, ⟨"e", "b", none, some "s", none⟩]

/-- Providers where Dexscreener prices address "a" and nothing else. -/
def dexOnlyProviders : Providers :=
  ⟨fun _ k => if k = "a" then some 1 else none, fun _ _ => none, fun _ _ => none⟩

/-- C3 counterexample: token 0 is resolved by the Dexscreener pass (its slot
carries source dexscreener), yet its CoinGecko id "s" IS in the CoinGecko
adapter's key list for the same run, because the still-pending token 1 shares
that id.  So "X's coingecko_id is never included in the CoinGecko adapter's
key list" fails as stated. -/
theorem c3_counterexample :
    ((resultsAfterDex emptyCache dexOnlyProviders 0 sharedIdTokens).getD 0 none).map
        PriceResult.source = some (some Source.dexscreener)
    ∧ (sharedIdTokens.get? 0).bind SheetTokenRow.coingecko_id = some "s"
    ∧ "s" ∈ geckoKeyList emptyCache dexOnlyProviders 0 sharedIdTokens := by
  decide

/-- Two tokens with disjoint identifiers; Dexscreener resolves the first. -/
def disjointIdTokens : List SheetTokenRow :=
  [⟨"e", "a", none, some "s", some "u"⟩, ⟨"e", "b", none, some "t", some "v"⟩]

/-- Witness for C3: at the concrete run where Dexscreener resolves token 0 and
no other token shares its identifiers, token 0 is consulted by neither later
pass and neither of its identifiers appears in a later key list. -/
theorem c3_witness :
    (0 ∉ geckoIdxList emptyCache dexOnlyProviders 0 disjointIdTokens
      ∧ 0 ∉ cmcIdxList emptyCache dexOnlyProviders 0 disjointIdTokens)
    ∧ jsToLower "s" ∉ geckoKeyList emptyCache dexOnlyProviders 0 disjointIdTokens
    ∧ jsToLower "u" ∉ cmcKeyList emptyCache dexOnlyProviders 0 disjointIdTokens := by
  have hother1 : ∀ j u, j ≠ 0 → disjointIdTokens.get? j = some u →
      u.coingecko_id.map jsToLower ≠ some (jsToLower "s") := by
    intro j u hj hu
    match j with
    | 0 => exact absurd rfl hj
    | 1 =>
      rw [show disjointIdTokens.get? 1 = some ⟨"e", "b", none, some "t", some "v"⟩
        from rfl] at hu
      cases hu
      decide
    | n + 2 =>
      rw [show disjointIdTokens.get? (n + 2) = none from rfl] at hu
      cases hu
  have hother2 : ∀ j u, j ≠ 0 → disjointIdTokens.get? j = some u →
      u.cmc_slug.map jsToLower ≠ some (jsToLower "u") := by
    intro j u hj hu
    match j with
    | 0 => exact absurd rfl hj
    | 1 =>
      rw [show disjointIdTokens.get? 1 = some ⟨"e", "b", none, some "t", some "v"⟩
        from rfl] at hu
      cases hu
      decide
    | n + 2 =>
      rw [show disjointIdTokens.get? (n + 2) = none from rfl] at hu
      cases hu
  have h := c3_priority_resolved_not_reconsulted emptyCache dexOnlyProviders 0
    disjointIdTokens 0 ⟨"e", "a", none, some "s", some "u"⟩ rfl (by decide)
  exact ⟨h.1, h.2.1 "s" rfl hother1, h.2.2 "u" rfl hother2⟩

/-- C4 (amended): a token whose `(chain, address)` key is cached at the start
of the run gets its output slot filled with the cached record itself — bitwise
unchanged, so in particular its original `at` timestamp is kept — its index is
pending in no pass and on neither slug consultation list, and its address
(resp. ids) stays out of the adapter key lists provided no other, uncached
token shares the same normalized address (resp. id/slug) — the key lists are
shared, so a duplicate identifier on a pending token can still put the string
in a list. -/
theorem c4_cache_short_circuit
    (cache : String → Option PriceResult) (prov : Providers) (now : Nat)
    (tokens : List SheetTokenRow) (i : Nat) (t : SheetTokenRow) (c : PriceResult)
    (ht : tokens.get? i = some t)
    (hc : cache (cacheKey t.chain t.contract_address) = some c) :
    (fetchAllPrices cache prov now tokens).getD i none = some c
    ∧ i ∉ needFetchIdx cache tokens
    ∧ i ∉ geckoIdxList cache prov now tokens
    ∧ i ∉ cmcIdxList cache prov now tokens
    ∧ ((∀ j u, j ∈ needFetchIdx cache tokens → tokens.get? j = some u →
          jsToLower u.contract_address ≠ jsToLower t.contract_address) →
        t.contract_address ∉ dexKeyList cache tokens)
    ∧ (∀ s, t.coingecko_id = some s →
        (∀ j u, j ∈ needFetchIdx cache tokens → tokens.get? j = some u →
          u.coingecko_id.map jsToLower ≠ some (jsToLower s)) →
        jsToLower s ∉ geckoKeyList cache prov now tokens)
    ∧ (∀ s, t.cmc_slug = some s →
        (∀ j u, j ∈ needFetchIdx cache tokens → tokens.get? j = some u →
          u.cmc_slug.map jsToLower ≠ some (jsToLower s)) →
        jsToLower s ∉ cmcKeyList cache prov now tokens) := by
  have h0 : (results0 cache tokens).getD i none = some c := by
    rw [results0_getD cache tokens i t ht]; exact hc
  refine ⟨fetchAllPrices_preserve cache prov now tokens i c h0, ?_, ?_, ?_, ?_, ?_, ?_⟩
  · intro hmem
    rw [((mem_needFetchIdx cache tokens i).mp hmem).2] at h0
    cases h0
  · intro hmem
    obtain ⟨p, hp, hpi⟩ := List.mem_map.mp hmem
    obtain ⟨s, j⟩ := p
    cases hpi
    have := (geckoKeyPairs_mem cache prov now tokens s j hp).1
    rw [((mem_needFetchIdx cache tokens j).mp this).2] at h0
    cases h0
  · intro hmem
    obtain ⟨p, hp, hpi⟩ := List.mem_map.mp hmem
    obtain ⟨s, j⟩ := p
    cases hpi
    have := (cmcKeyPairs_mem cache prov now tokens s j hp).1
    rw [((mem_needFetchIdx cache tokens j).mp this).2] at h0
    cases h0
  · intro hothers hmem
    rw [dexKeyList, List.mem_filterMap] at hmem
    obtain ⟨j, hj, hf⟩ := hmem
    rw [Option.map_eq_some'] at hf
    obtain ⟨u, hu, hua⟩ := hf
    exact hothers j u hj hu (by rw [hua])
  · intro s hs hothers hmem
    obtain ⟨p, hp, hpk⟩ := List.mem_map.mp hmem
    obtain ⟨k, j⟩ := p
    cases hpk
    obtain ⟨hjn, _, u, id, hu, hid, _, hkid⟩ :=
      geckoKeyPairs_mem cache prov now tokens _ j hp
    exact hothers j u hjn hu (by rw [hid, Option.map_some', ← hkid]; rfl)
  · intro s hs hothers hmem
    obtain ⟨p, hp, hpk⟩ := List.mem_map.mp hmem
    obtain ⟨k, j⟩ := p
    cases hpk
    obtain ⟨hjn, _, u, slug, hu, hslug, _, hkid⟩ :=
      cmcKeyPairs_mem cache prov now tokens _ j hp
    exact hothers j u hjn hu (by rw [hslug, Option.map_some', ← hkid]; rfl)

/-- A cached record with a recognizable original timestamp. -/
def cachedRecord : PriceResult :=
  ⟨"e", "x", none, some 5, some Source.dexscreener, 42⟩

/-- A cache holding exactly the key for chain "e", address "x". -/
def oneEntryCache : String → Option PriceResult :=
  fun k => if k = "price:e:x" then some cachedRecord else none

/-- Two tokens with the same address "x" on different chains; only the first
is cached. -/
def sharedAddrTokens : List SheetTokenRow :=
  [⟨"e", "x", none, none, none⟩, ⟨"b", "x", none, none, none⟩]

/-- C4 counterexample: token 0's `(chain, address)` is cached, yet its address
"x" IS in the Dexscreener adapter's key list for the run, contributed by the
uncached token 1 which shares the address on another chain.  So "its
address/slug appears in no adapter key list" fails as stated. -/
theorem c4_counterexample :
    oneEntryCache (cacheKey "e" "x") = some cachedRecord
    ∧ (sharedAddrTokens.get? 0).map SheetTokenRow.contract_address = some "x"
    ∧ "x" ∈ dexKeyList oneEntryCache sharedAddrTokens := by
  decide

/-- Two tokens with disjoint identifiers; only the first is cached. -/
def cachedDisjointTokens : List SheetTokenRow :=
  [⟨"e", "x", none, some "s", some "u"⟩, ⟨"b", "y", none, some "t", some "v"⟩]

/-- Witness for C4: at the concrete run whose cache holds token 0 (stored with
`at` = 42), the output slot is the cached record with its timestamp untouched,
token 0 is consulted nowhere, and none of its identifiers reaches a key
list. -/
theorem c4_witness :
    (fetchAllPrices oneEntryCache noProviders 9 cachedDisjointTokens).getD 0 none
        = some cachedRecord
    ∧ ((fetchAllPrices oneEntryCache noProviders 9 cachedDisjointTokens).getD 0 none).map
        PriceResult.at = some 42
    ∧ 0 ∉ needFetchIdx oneEntryCache cachedDisjointTokens
    ∧ 0 ∉ geckoIdxList oneEntryCache noProviders 9 cachedDisjointTokens
    ∧ 0 ∉ cmcIdxList oneEntryCache noProviders 9 cachedDisjointTokens
    ∧ "x" ∉ dexKeyList oneEntryCache cachedDisjointTokens
    ∧ jsToLower "s" ∉ geckoKeyList oneEntryCache noProviders 9 cachedDisjointTokens
    ∧ jsToLower "u" ∉ cmcKeyList oneEntryCache noProviders 9 cachedDisjointTokens := by
  have hother0 : ∀ j u, j ∈ needFetchIdx oneEntryCache cachedDisjointTokens →
      cachedDisjointTokens.get? j = some u →
      jsToLower u.contract_address ≠ jsToLower "x" := by
    intro j u hj hu
    match j with
    | 0 => exact absurd hj (by decide)
    | 1 =>
      rw [show cachedDisjointTokens.get? 1 = some ⟨"b", "y", none, some "t", some "v"⟩
        from rfl] at hu
      cases hu
      decide
    | n + 2 =>
      rw [show cachedDisjointTokens.get? (n + 2) = none from rfl] at hu
      cases hu
  have hother1 : ∀ j u, j ∈ needFetchIdx oneEntryCache cachedDisjointTokens →
      cachedDisjointTokens.get? j = some u →
      u.coingecko_id.map jsToLower ≠ some (jsToLower "s") := by
    intro j u hj hu
    match j with
    | 0 => exact absurd hj (by decide)
    | 1 =>
      rw [show cachedDisjointTokens.get? 1 = some ⟨"b", "y", none, some "t", some "v"⟩
        from rfl] at hu
      cases hu
      decide
    | n + 2 =>
      rw [show cachedDisjointTokens.get? (n + 2) = none from rfl] at hu
      cases hu
  have hother2 : ∀ j u, j ∈ needFetchIdx oneEntryCache cachedDisjointTokens →
      cachedDisjointTokens.get? j = some u →
      u.cmc_slug.map jsToLower ≠ some (jsToLower "u") := by
    intro j u hj hu
    match j with
    | 0 => exact absurd hj (by decide)
    | 1 =>
      rw [show cachedDisjointTokens.get? 1 = some ⟨"b", "y", none, some "t", some "v"⟩
        from rfl] at hu
      cases hu
      decide
    | n + 2 =>
      rw [show cachedDisjointTokens.get? (n + 2) = none from rfl] at hu
      cases hu
  have h := c4_cache_short_circuit oneEntryCache noProviders 9 cachedDisjointTokens 0
    ⟨"e", "x", none, some "s", some "u"⟩ cachedRecord rfl (by decide)
  refine ⟨h.1, ?_, h.2.1, h.2.2.1, h.2.2.2.1, h.2.2.2.2.1 hother0,
    h.2.2.2.2.2.1 "s" rfl hother1, h.2.2.2.2.2.2 "u" rfl hother2⟩
  rw [h.1]
  rfl

/-- The sort order of `pickBestPair`, spelled out: `a` sorts before-or-with `b`
exactly when `a` beats `b` lexicographically on (liquidity, volume, cap). -/
theorem pairLe_iff (a b : DexPair) : pairLe a b = true ↔
    (liqOf b < liqOf a ∨ (liqOf a = liqOf b ∧
      (volOf b < volOf a ∨ (volOf a = volOf b ∧ capOf b ≤ capOf a)))) := by
  unfold pairLe
  split_ifs with h1 h2
  · rw [decide_eq_true_iff]
    constructor
    · intro h
      exact Or.inl (lt_of_le_of_ne h h1)
    · rintro (h | ⟨heq, _⟩)
      · exact h.le
      · exact absurd heq.symm h1
  · push_neg at h1
    rw [decide_eq_true_iff]
    constructor
    · intro h
      exact Or.inr ⟨h1.symm, Or.inl (lt_of_le_of_ne h h2)⟩
    · rintro (h | ⟨_, hv | ⟨hveq, _⟩⟩)
      · rw [h1] at h; exact absurd h (lt_irrefl _)
      · exact hv.le
      · exact absurd hveq.symm h2
  · push_neg at h1 h2
    rw [decide_eq_true_iff]
    constructor
    · intro h
      exact Or.inr ⟨h1.symm, Or.inr ⟨h2.symm, h⟩⟩
    · rintro (h | ⟨_, hv | ⟨_, hc⟩⟩)
      · rw [h1] at h; exact absurd h (lt_irrefl _)
      · rw [h2] at hv; exact absurd hv (lt_irrefl _)
      · exact hc

/-- Totality of the `pickBestPair` sort order. -/
theorem pairLe_total (a b : DexPair) : (pairLe a b || pairLe b a) = true := by
  rw [Bool.or_eq_true, pairLe_iff, pairLe_iff]
  rcases lt_trichotomy (liqOf a) (liqOf b) with h | h | h
  · right; left; exact h
  · rcases lt_trichotomy (volOf a) (volOf b) with h2 | h2 | h2
    · right; right; exact ⟨h.symm, Or.inl h2⟩
    · rcases le_total (capOf a) (capOf b) with h3 | h3
      · right; right; exact ⟨h.symm, Or.inr ⟨h2.symm, h3⟩⟩
      · left; right; exact ⟨h, Or.inr ⟨h2, h3⟩⟩
    · left; right; exact ⟨h, Or.inl h2⟩
  · left; left; exact h

/-- Transitivity of the `pickBestPair` sort order. -/
theorem pairLe_trans (a b c : DexPair) (hab : pairLe a b = true)
    (hbc : pairLe b c = true) : pairLe a c = true := by
  rw [pairLe_iff] at hab hbc ⊢
  rcases hab with h1 | ⟨e1, h1⟩ <;> rcases hbc with h2 | ⟨e2, h2⟩
  · exact Or.inl (h2.trans h1)
  · left; rw [← e2]; exact h1
  · left; rw [e1]; exact h2
  · right
    refine ⟨e1.trans e2, ?_⟩
    rcases h1 with v1 | ⟨ev1, c1⟩ <;> rcases h2 with v2 | ⟨ev2, c2⟩
    · exact Or.inl (v2.trans v1)
    · left; rw [← ev2]; exact v1
    · left; rw [ev1]; exact v2
    · exact Or.inr ⟨ev1.trans ev2, c2.trans c1⟩

/-- C9: among the response pairs with a known price, `pickBestPair` returns a
pair of highest USD liquidity, breaking liquidity ties by highest 24h volume
and remaining ties by highest cap (`marketCap`, falling back to `fdv`); and
whenever any pair has a non-null `priceUsd` the selection is non-null. -/
theorem c9_pickBestPair_selection (pairs : List DexPair) :
    ((∃ p ∈ pairs, p.priceUsd.isSome = true) → (pickBestPair pairs).isSome = true)
    ∧ (∀ best, pickBestPair pairs = some best →
        best ∈ pairs ∧ best.priceUsd.isSome = true
        ∧ ∀ q ∈ pairs, q.priceUsd.isSome = true →
            (liqOf q < liqOf best ∨ (liqOf best = liqOf q ∧
              (volOf q < volOf best ∨ (volOf best = volOf q ∧ capOf q ≤ capOf best))))) := by
  haveI htot : IsTotal DexPair (fun a b => pairLe a b = true) :=
    ⟨fun a b => Bool.or_eq_true .. |>.mp (pairLe_total a b)⟩
  haveI htr : IsTrans DexPair (fun a b => pairLe a b = true) :=
    ⟨fun a b c => pairLe_trans a b c⟩
  constructor
  · rintro ⟨p, hp, hps⟩
    show (let candidates := pairs.filter (fun q => q.priceUsd.isSome)
      if candidates.isEmpty then none
      else (candidates.insertionSort (fun a b => pairLe a b = true)).head?).isSome = true
    show (if (pairs.filter (fun q => q.priceUsd.isSome)).isEmpty then none
      else ((pairs.filter (fun q => q.priceUsd.isSome)).insertionSort
        (fun a b => pairLe a b = true)).head?).isSome = true
    have hpc : p ∈ pairs.filter (fun q => q.priceUsd.isSome) :=
      List.mem_filter.mpr ⟨hp, hps⟩
    have hne : ¬(pairs.filter (fun q => q.priceUsd.isSome)).isEmpty = true := by
      rw [List.isEmpty_iff]
      intro hnil
      rw [hnil] at hpc
      cases hpc
    rw [if_neg hne]
    have hperm := List.perm_insertionSort
      (fun a b => pairLe a b = true) (pairs.filter (fun q => q.priceUsd.isSome))
    have hpm : p ∈ (pairs.filter (fun q => q.priceUsd.isSome)).insertionSort
        (fun a b => pairLe a b = true) :=
      hperm.mem_iff.mpr hpc
    cases hms : (pairs.filter (fun q => q.priceUsd.isSome)).insertionSort
        (fun a b => pairLe a b = true) with
    | nil => rw [hms] at hpm; cases hpm
    | cons hd tl => rfl
  · intro best h
    rw [show pickBestPair pairs
        = (if (pairs.filter (fun q => q.priceUsd.isSome)).isEmpty then none
          else ((pairs.filter (fun q => q.priceUsd.isSome)).insertionSort
            (fun a b => pairLe a b = true)).head?) from rfl] at h
    by_cases hemp : (pairs.filter (fun q => q.priceUsd.isSome)).isEmpty
    · rw [if_pos hemp] at h; cases h
    · rw [if_neg hemp] at h
      have hsorted := List.sorted_insertionSort (fun a b => pairLe a b = true)
        (pairs.filter (fun q => q.priceUsd.isSome))
      have hperm := List.perm_insertionSort
        (fun a b => pairLe a b = true) (pairs.filter (fun q => q.priceUsd.isSome))
      cases hms : (pairs.filter (fun q => q.priceUsd.isSome)).insertionSort
          (fun a b => pairLe a b = true) with
      | nil => rw [hms] at h; cases h
      | cons hd tl =>
        rw [hms] at h hsorted hperm
        rw [List.head?_cons] at h
        cases Option.some.inj h
        have hbmem : best ∈ pairs.filter (fun q => q.priceUsd.isSome) :=
          hperm.subset (List.mem_cons_self _ _)
        obtain ⟨hbp, hbs⟩ := List.mem_filter.mp hbmem
        refine ⟨hbp, hbs, ?_⟩
        intro q hq hqs
        have hqc : q ∈ best :: tl :=
          hperm.mem_iff.mpr (List.mem_filter.mpr ⟨hq, hqs⟩)
        rcases List.mem_cons.mp hqc with rfl | hqtl
        · exact Or.inr ⟨rfl, Or.inr ⟨rfl, le_refl _⟩⟩
        · have hle := (List.pairwise_cons.mp hsorted).1 q hqtl
          exact (pairLe_iff best q).mp hle

/-- A priced pair with liquidity 10. -/
def pairA : DexPair := ⟨some 1, some 10, none, none, some 3, some "a", none⟩

/-- A priced pair with liquidity 20 for the same token. -/
def pairB : DexPair := ⟨some 2, some 20, none, none, some 1, some "a", none⟩

/-- Witness for C9 on a concrete two-pair response: a selection exists, pairB
is selected, and pairA loses on liquidity. -/
theorem c9_witness :
    (pickBestPair [pairA, pairB]).isSome = true
    ∧ pairB ∈ [pairA, pairB]
    ∧ (liqOf pairA < liqOf pairB ∨ (liqOf pairB = liqOf pairA ∧
        (volOf pairA < volOf pairB ∨ (volOf pairB = volOf pairA ∧
          capOf pairA ≤ capOf pairB)))) := by
  have h := c9_pickBestPair_selection [pairA, pairB]
  have hsel : pickBestPair [pairA, pairB] = some pairB := by decide
  exact ⟨h.1 ⟨pairA, by decide, by decide⟩, (h.2 pairB hsel).1,
    (h.2 pairB hsel).2.2 pairA (by decide) (by decide)⟩


/-- Fuel irrelevance for the chunk slicer: any fuel covering the list length
computes the same chunks. -/
theorem chunkListAux_fuel {α : Type} (size : Nat) :
    ∀ (fuel fuel2 : Nat) (l : List α), l.length ≤ fuel → l.length ≤ fuel2 →
      chunkListAux size fuel l = chunkListAux size fuel2 l := by
  intro fuel
  induction fuel with
  | zero =>
    intro fuel2 l hl _
    have hnil : l = [] := List.eq_nil_of_length_eq_zero (Nat.le_zero.mp hl)
    subst hnil
    cases fuel2 <;> rfl
  | succ fuel ih =>
    intro fuel2 l hl hl2
    cases l with
    | nil => cases fuel2 <;> rfl
    | cons a as =>
      cases fuel2 with
      | zero => exact absurd hl2 (by simp)
      | succ fuel2 =>
        show (a :: as).take (max 1 size) :: chunkListAux size fuel ((a :: as).drop (max 1 size))
          = (a :: as).take (max 1 size) :: chunkListAux size fuel2 ((a :: as).drop (max 1 size))
        have h1 : 1 ≤ max 1 size := le_max_left 1 size
        have hlen : ((a :: as).drop (max 1 size)).length = (a :: as).length - max 1 size :=
          List.length_drop _ _
        have hd : ((a :: as).drop (max 1 size)).length ≤ fuel := by
          rw [hlen]
          simp only [List.length_cons] at hl ⊢
          omega
        have hd2 : ((a :: as).drop (max 1 size)).length ≤ fuel2 := by
          rw [hlen]
          simp only [List.length_cons] at hl2 ⊢
          omega
        rw [ih fuel2 _ hd hd2]

/-- The direct recursion satisfied by `chunkList`. -/
theorem chunkList_eq {α : Type} (size : Nat) (l : List α) :
    chunkList size l =
      if l.isEmpty then []
      else l.take (max 1 size) :: chunkList size (l.drop (max 1 size)) := by
  cases l with
  | nil => rfl
  | cons a as =>
    show chunkListAux size (a :: as).length (a :: as) = _
    simp only [List.isEmpty_cons, Bool.false_eq_true, if_false]
    show (a :: as).take (max 1 size)
        :: chunkListAux size (as.length) ((a :: as).drop (max 1 size)) = _
    have h1 : 1 ≤ max 1 size := le_max_left 1 size
    have hlen : ((a :: as).drop (max 1 size)).length = (a :: as).length - max 1 size :=
      List.length_drop _ _
    rw [chunkListAux_fuel size as.length ((a :: as).drop (max 1 size)).length
      ((a :: as).drop (max 1 size)) (by rw [hlen]; simp only [List.length_cons]; omega)
      (le_refl _)]
    rfl

/-- Concatenating the chunks gives back the list. -/
theorem chunkListAux_flatten {α : Type} (size : Nat) :
    ∀ (fuel : Nat) (l : List α), l.length ≤ fuel →
      (chunkListAux size fuel l).flatten = l := by
  intro fuel
  induction fuel with
  | zero =>
    intro l hl
    have hnil : l = [] := List.eq_nil_of_length_eq_zero (Nat.le_zero.mp hl)
    subst hnil
    rfl
  | succ fuel ih =>
    intro l hl
    cases l with
    | nil => rfl
    | cons a as =>
      show ((a :: as).take (max 1 size)
        :: chunkListAux size fuel ((a :: as).drop (max 1 size))).flatten = _
      rw [List.flatten_cons]
      have h1 : 1 ≤ max 1 size := le_max_left 1 size
      have hlen : ((a :: as).drop (max 1 size)).length = (a :: as).length - max 1 size :=
        List.length_drop _ _
      rw [ih _ (by rw [hlen]; simp only [List.length_cons] at hl ⊢; omega),
        List.take_append_drop]

/-- Concatenating `chunkList` chunks gives back the list. -/
theorem chunkList_flatten {α : Type} (size : Nat) (l : List α) :
    (chunkList size l).flatten = l :=
  chunkListAux_flatten size l.length l (le_refl _)

/-- Every chunk respects the slice bound. -/
theorem chunkListAux_sizes {α : Type} (size : Nat) :
    ∀ (fuel : Nat) (l : List α), l.length ≤ fuel →
      ∀ c ∈ chunkListAux size fuel l, c.length ≤ max 1 size := by
  intro fuel
  induction fuel with
  | zero =>
    intro l hl c hc
    have hnil : l = [] := List.eq_nil_of_length_eq_zero (Nat.le_zero.mp hl)
    subst hnil
    cases hc
  | succ fuel ih =>
    intro l hl c hc
    cases l with
    | nil => cases hc
    | cons a as =>
      rcases List.mem_cons.mp hc with rfl | htl
      · rw [List.length_take]
        exact min_le_left _ _
      · have h1 : 1 ≤ max 1 size := le_max_left 1 size
        have hlen : ((a :: as).drop (max 1 size)).length = (a :: as).length - max 1 size :=
          List.length_drop _ _
        exact ih _ (by rw [hlen]; simp only [List.length_cons] at hl ⊢; omega) c htl

/-- Every chunk respects the slice bound (`chunkList` form). -/
theorem chunkList_sizes {α : Type} (size : Nat) (l : List α) :
    ∀ c ∈ chunkList size l, c.length ≤ max 1 size :=
  chunkListAux_sizes size l.length l (le_refl _)

/-- De-duplication keeps exactly the original elements. -/
theorem mem_dedupStr (l : List String) (s : String) : s ∈ dedupStr l ↔ s ∈ l := by
  induction l with
  | nil => rfl
  | cons x rest ih =>
    show s ∈ x :: (dedupStr rest).filter (fun y => y ≠ x) ↔ _
    constructor
    · intro h
      rcases List.mem_cons.mp h with rfl | h
      · exact List.mem_cons_self _ _
      · exact List.mem_cons_of_mem _ (ih.mp (List.mem_filter.mp h).1)
    · intro h
      rcases List.mem_cons.mp h with rfl | h
      · exact List.mem_cons_self _ _
      · by_cases hx : s = x
        · rw [hx]; exact List.mem_cons_self _ _
        · exact List.mem_cons_of_mem _
            (List.mem_filter.mpr ⟨ih.mpr h, by simpa using hx⟩)

/-- De-duplication produces a duplicate-free list. -/
theorem nodup_dedupStr (l : List String) : (dedupStr l).Nodup := by
  induction l with
  | nil => exact List.nodup_nil
  | cons x rest ih =>
    refine List.Nodup.cons ?_ (List.Nodup.filter _ ih)
    intro hmem
    have := (List.mem_filter.mp hmem).2
    simp at this

/-- Membership in the normalized unique id list of the CoinGecko/CMC
adapters. -/
theorem mem_geckoUniq (ids : List String) (s : String) :
    s ∈ geckoUniq ids ↔ (∃ a ∈ ids, jsToLower a = s) ∧ s ≠ "" := by
  rw [geckoUniq, mem_dedupStr]
  constructor
  · intro h
    obtain ⟨hmem, hne⟩ := List.mem_filter.mp h
    obtain ⟨a, ha, hla⟩ := List.mem_map.mp hmem
    exact ⟨⟨a, ha, hla⟩, by simpa using hne⟩
  · rintro ⟨⟨a, ha, hla⟩, hne⟩
    exact List.mem_filter.mpr ⟨List.mem_map.mpr ⟨a, ha, hla⟩, by simpa using hne⟩

/-- The unique id list is duplicate-free. -/
theorem nodup_geckoUniq (ids : List String) : (geckoUniq ids).Nodup :=
  nodup_dedupStr _

/-- Key-projected membership through key-based de-duplication. -/
theorem mem_dedupByKey_snd (l : List (String × String)) (k : String) :
    k ∈ (dedupByKey l).map Prod.snd ↔ k ∈ l.map Prod.snd := by
  induction l with
  | nil => rfl
  | cons r rest ih =>
    show k ∈ (r :: (dedupByKey rest).filter (fun x => x.2 ≠ r.2)).map Prod.snd ↔ _
    rw [List.map_cons, List.map_cons]
    constructor
    · intro h
      rcases List.mem_cons.mp h with rfl | h
      · exact List.mem_cons_self _ _
      · obtain ⟨e, he, hek⟩ := List.mem_map.mp h
        obtain ⟨hed, _⟩ := List.mem_filter.mp he
        exact List.mem_cons_of_mem _ (ih.mp (List.mem_map.mpr ⟨e, hed, hek⟩))
    · intro h
      rcases List.mem_cons.mp h with rfl | h
      · exact List.mem_cons_self _ _
      · by_cases hk : k = r.2
        · rw [hk]; exact List.mem_cons_self _ _
        · obtain ⟨e, he, hek⟩ := List.mem_map.mp (ih.mpr h)
          refine List.mem_cons_of_mem _ (List.mem_map.mpr ⟨e, ?_, hek⟩)
          exact List.mem_filter.mpr ⟨he, by rw [hek]; simpa using hk⟩

/-- Key-based de-duplication leaves no duplicate keys. -/
theorem nodup_dedupByKey_snd (l : List (String × String)) :
    ((dedupByKey l).map Prod.snd).Nodup := by
  induction l with
  | nil => exact List.nodup_nil
  | cons r rest ih =>
    show ((r :: (dedupByKey rest).filter (fun x => x.2 ≠ r.2)).map Prod.snd).Nodup
    rw [List.map_cons]
    refine List.Nodup.cons ?_ ?_
    · intro hmem
      obtain ⟨e, he, hek⟩ := List.mem_map.mp hmem
      have := (List.mem_filter.mp he).2
      rw [hek] at this
      simp at this
    · exact ((List.filter_sublist _).map Prod.snd).nodup ih

/-- Every entry surviving de-duplication was in the original list. -/
theorem dedupByKey_subset (l : List (String × String)) (e : String × String)
    (h : e ∈ dedupByKey l) : e ∈ l := by
  induction l with
  | nil => cases h
  | cons r rest ih =>
    rcases List.mem_cons.mp h with rfl | h
    · exact List.mem_cons_self _ _
    · exact List.mem_cons_of_mem _ (ih (List.mem_filter.mp h).1)

/-- Shape of an entry of the Dexscreener `uniq` list: a trimmed, nonempty
original together with its lower-cased key. -/
theorem mem_dexUniq_shape (addresses : List String) (e : String × String)
    (h : e ∈ dexUniq addresses) :
    e.1 ≠ "" ∧ e.2 = jsToLower e.1 ∧ ∃ a ∈ addresses, e.1 = jsTrim a := by
  have hmem := dedupByKey_subset _ _ h
  rw [dexNormalize] at hmem
  obtain ⟨hm, hne⟩ := List.mem_filter.mp hmem
  obtain ⟨a, ha, hae⟩ := List.mem_map.mp hm
  refine ⟨by simpa using hne, ?_, a, ha, ?_⟩
  · rw [← hae]
  · rw [← hae]

/-- Key-projected membership in the Dexscreener `uniq` list. -/
theorem mem_dexUniq_snd (addresses : List String) (k : String) :
    k ∈ (dexUniq addresses).map Prod.snd ↔
      ∃ a ∈ addresses, jsTrim a ≠ "" ∧ jsToLower (jsTrim a) = k := by
  rw [dexUniq, mem_dedupByKey_snd, dexNormalize]
  constructor
  · intro h
    obtain ⟨e, he, hek⟩ := List.mem_map.mp h
    obtain ⟨hm, hne⟩ := List.mem_filter.mp he
    obtain ⟨a, ha, hae⟩ := List.mem_map.mp hm
    refine ⟨a, ha, ?_, ?_⟩
    · have : e.1 = jsTrim a := by rw [← hae]
      rw [← this]; simpa using hne
    · have h2 : e.2 = jsToLower (jsTrim a) := by rw [← hae]
      rw [← h2, hek]
  · rintro ⟨a, ha, hne, hk⟩
    refine List.mem_map.mpr ⟨(jsTrim a, jsToLower (jsTrim a)), ?_, hk⟩
    exact List.mem_filter.mpr ⟨List.mem_map.mpr ⟨a, ha, rfl⟩, by simpa using hne⟩

/-- Assignment never changes the key set of the output object. -/
theorem updA_keys (m : List (String × Option ℚ)) (k : String) (v : Option ℚ) :
    (updA m k v).map Prod.fst = m.map Prod.fst := by
  rw [updA, List.map_map]
  refine List.map_congr_left ?_
  intro e _
  show (if e.1 = k then (k, v) else e).1 = e.1
  split
  · rename_i he; rw [← he]
  · rfl

/-- A key is looked up successfully exactly when it is bound. -/
theorem lookupA_isSome (m : List (String × Option ℚ)) (k : String) :
    (lookupA m k).isSome = true ↔ k ∈ m.map Prod.fst := by
  rw [lookupA, Option.isSome_map']
  rw [List.find?_isSome]
  constructor
  · rintro ⟨e, he, hek⟩
    exact List.mem_map.mpr ⟨e, he, by simpa using hek⟩
  · intro h
    obtain ⟨e, he, hek⟩ := List.mem_map.mp h
    exact ⟨e, he, by simpa using hek⟩

/-- Any fold whose steps preserve the key set preserves the key set. -/
theorem foldl_keys {β : Type} (step : List (String × Option ℚ) → β → List (String × Option ℚ))
    (hstep : ∀ o b, (step o b).map Prod.fst = o.map Prod.fst)
    (l : List β) (out : List (String × Option ℚ)) :
    (l.foldl step out).map Prod.fst = out.map Prod.fst := by
  induction l generalizing out with
  | nil => rfl
  | cons b rest ih => rw [List.foldl_cons, ih, hstep]

/-- The CoinGecko adapter's output binds exactly the normalized unique ids. -/
theorem fetchCoingeckoBatchByIds_keys (oracle : GeckoOracle) (ids : List String)
    (batchSize? : Option Nat) :
    (fetchCoingeckoBatchByIds oracle ids batchSize?).map Prod.fst = geckoUniq ids := by
  show ((chunkList _ (geckoUniq ids)).foldl _
    ((geckoUniq ids).map (fun id => (id, (none : Option ℚ))))).map Prod.fst = _
  rw [foldl_keys]
  · rw [List.map_map]
    exact (List.map_congr_left (fun a _ => rfl)).trans (List.map_id _)
  · intro o part
    rw [geckoApplyChunk, foldl_keys]
    intro o2 id
    cases geckoData oracle part id with
    | none => rfl
    | some v => exact updA_keys o2 id (some v)

/-- The CMC adapter's output binds exactly the normalized unique slugs. -/
theorem fetchCmcBatchBySlugs_keys (lookup : String → Option ℚ) (slugs : List String)
    (concurrency? : Option Nat) :
    (fetchCmcBatchBySlugs lookup slugs concurrency?).map Prod.fst = geckoUniq slugs := by
  show ((chunkList _ (geckoUniq slugs)).foldl _
    ((geckoUniq slugs).map (fun s => (s, (none : Option ℚ))))).map Prod.fst = _
  rw [foldl_keys]
  · rw [List.map_map]
    exact (List.map_congr_left (fun a _ => rfl)).trans (List.map_id _)
  · intro o part
    rw [cmcApplyChunk, foldl_keys]
    intro o2 slug
    exact updA_keys o2 slug (lookup slug)

/-- Per-chunk assignment preserves the key set. -/
theorem assignChunk_keys (chunk : List (String × String)) (pairs : List DexPair)
    (out : List (String × Option ℚ)) :
    (assignChunk chunk pairs out).map Prod.fst = out.map Prod.fst := by
  rw [assignChunk, foldl_keys]
  intro o c
  exact updA_keys o c.2 _

/-- The per-address fallback preserves the key set. -/
theorem dexFallback_keys (oracle : DexOracle) (cs : List (String × String))
    (out : List (String × Option ℚ)) :
    (dexFallback oracle cs out).2.map Prod.fst = out.map Prod.fst := by
  induction cs generalizing out with
  | nil => rfl
  | cons c rest ih =>
    show (dexFallback oracle rest _).2.map Prod.fst = _
    rw [ih]
    cases fetchDexscreenerPrice oracle c.1 with
    | error e => rfl
    | ok v =>
      cases v with
      | none => rfl
      | some p => exact updA_keys out c.2 (some p)

/-- The chunk loop preserves the key set on success. -/
theorem dexLoop_keys (oracle : DexOracle) (chunks : List (List (String × String)))
    (out : List (String × Option ℚ)) (m : List (String × Option ℚ))
    (h : (dexLoop oracle chunks out).2 = Except.ok m) :
    m.map Prod.fst = out.map Prod.fst := by
  induction chunks generalizing out with
  | nil =>
    injection h with h
    rw [← h]
  | cons chunk rest ih =>
    rw [dexLoop] at h
    cases horacle : oracle (chunk.map (·.1)) with
    | error e => rw [horacle] at h; cases h
    | ok pairs =>
      rw [horacle] at h
      simp only at h
      by_cases hfb : fallbackNeeded chunk pairs (assignChunk chunk pairs out)
      · rw [if_pos hfb] at h
        rw [ih _ h, dexFallback_keys, assignChunk_keys]
      · rw [if_neg hfb] at h
        rw [ih _ h, assignChunk_keys]

/-- A write-back loop over an absent response changes nothing. -/
theorem geckoApplyChunk_none (out : List (String × Option ℚ)) (part : List String) :
    geckoApplyChunk (fun _ => none) out part = out := by
  induction part generalizing out with
  | nil => rfl
  | cons id rest ih => exact ih out

/-- With every upstream CoinGecko call failing, the adapter returns its
pre-filled all-null map. -/
theorem fetchCoingeckoBatchByIds_error (oracle : GeckoOracle) (ids : List String)
    (batchSize? : Option Nat) (horacle : ∀ req, oracle req = Except.error ()) :
    fetchCoingeckoBatchByIds oracle ids batchSize?
      = (geckoUniq ids).map (fun id => (id, none)) := by
  show (chunkList _ (geckoUniq ids)).foldl
    (fun out part => geckoApplyChunk (geckoData oracle part) out part)
    ((geckoUniq ids).map (fun id => (id, (none : Option ℚ)))) = _
  generalize (geckoUniq ids).map (fun id => (id, (none : Option ℚ))) = out0
  induction chunkList (max 1 (min 250 (batchSize?.getD 150))) (geckoUniq ids)
      generalizing out0 with
  | nil => rfl
  | cons part rest ih =>
    rw [List.foldl_cons]
    have hd : geckoData oracle part = fun _ => none := by
      rw [geckoData, horacle part]
    rw [hd, geckoApplyChunk_none]
    exact ih out0

/-- Writing a null keeps an all-null map all-null. -/
theorem updA_values_none (m : List (String × Option ℚ)) (k : String)
    (h : ∀ e ∈ m, e.2 = none) : ∀ e ∈ updA m k none, e.2 = none := by
  intro e he
  obtain ⟨d, hd, hde⟩ := List.mem_map.mp he
  rw [← hde]
  by_cases hk : d.1 = k
  · rw [if_pos hk]
  · rw [if_neg hk]
    exact h d hd

/-- A CMC window whose every slug lookup is null keeps the map all-null. -/
theorem cmcApplyChunk_values_none (out : List (String × Option ℚ)) (part : List String)
    (h : ∀ e ∈ out, e.2 = none) :
    ∀ e ∈ cmcApplyChunk (fun _ => none) out part, e.2 = none := by
  induction part generalizing out with
  | nil => exact h
  | cons slug rest ih =>
    exact ih (updA out slug none) (updA_values_none out slug h)

/-- C5 counterexample: the Dexscreener batch function DOES raise to its
caller: with one address and an upstream whose retries are exhausted on every
request, the adapter's outcome is the propagated error, not a map. -/
theorem c5_counterexample :
    (fetchDexscreenerBatchByTokens (fun _ => Except.error ()) ["a"] none).2
      = Except.error () := by
  rfl

/-- C5 (amended): CoinGecko and CMC contain upstream failure — with every
call exhausting its retries they still return their total maps, explicitly
null on every key, and never raise; the Dexscreener batch function instead
propagates an exhausted chunk request to its caller (where `fetchAllPrices`
catches it), its per-address fallback being the only part that swallows
errors. -/
theorem c5_adapter_failure_containment :
    (∀ (oracle : GeckoOracle) (ids : List String) (batchSize? : Option Nat),
      (∀ req, oracle req = Except.error ()) →
      ∀ e ∈ fetchCoingeckoBatchByIds oracle ids batchSize?, e.2 = none)
    ∧ (∀ (slugs : List String) (concurrency? : Option Nat),
      ∀ e ∈ fetchCmcBatchBySlugs (fun _ => none) slugs concurrency?, e.2 = none)
    ∧ (∀ (oracle : DexOracle) (addresses : List String) (batchSize? : Option Nat),
      (∀ req, oracle req = Except.error ()) →
      dexUniq addresses ≠ [] →
      (fetchDexscreenerBatchByTokens oracle addresses batchSize?).2
        = Except.error ()) := by
  refine ⟨?_, ?_, ?_⟩
  · intro oracle ids batchSize? horacle e he
    rw [fetchCoingeckoBatchByIds_error oracle ids batchSize? horacle] at he
    obtain ⟨id, _, hide⟩ := List.mem_map.mp he
    rw [← hide]
  · intro slugs concurrency? e he
    revert e he
    show ∀ e ∈ (chunkList _ (geckoUniq slugs)).foldl
      (fun out part => cmcApplyChunk (fun _ => none) out part)
      ((geckoUniq slugs).map (fun s => (s, (none : Option ℚ)))), e.2 = none
    have h0 : ∀ e ∈ (geckoUniq slugs).map (fun s => (s, (none : Option ℚ))),
        e.2 = none := by
      intro e he
      obtain ⟨s, _, hse⟩ := List.mem_map.mp he
      rw [← hse]
    generalize (geckoUniq slugs).map (fun s => (s, (none : Option ℚ))) = out0 at h0 ⊢
    induction chunkList (max 1 (min 10 (concurrency?.getD 4))) (geckoUniq slugs)
        generalizing out0 with
    | nil => exact h0
    | cons part rest ih =>
      rw [List.foldl_cons]
      exact ih _ (cmcApplyChunk_values_none out0 part h0)
  · intro oracle addresses batchSize? horacle hne
    show (dexLoop oracle (chunkList _ (dexUniq addresses))
      ((dexUniq addresses).map (fun r => (r.2, (none : Option ℚ))))).2 = _
    rw [chunkList_eq]
    rw [if_neg (by simpa [List.isEmpty_iff] using hne)]
    rw [dexLoop, horacle]

/-- A CoinGecko upstream whose every request exhausts its retries. -/
def geckoFailOracle : GeckoOracle := fun _ => Except.error ()

/-- A Dexscreener upstream answering every request with an empty pair list. -/
def dexEmptyOracle : DexOracle := fun _ => Except.ok []

/-- Witness for C5: concrete all-failing runs — CoinGecko and CMC return
all-null maps; the Dexscreener batch outcome is the propagated error. -/
theorem c5_witness :
    ((fetchCoingeckoBatchByIds geckoFailOracle ["x"] none).all
      (fun e => e.2.isNone)) = true
    ∧ ((fetchCmcBatchBySlugs (fun _ => none) ["y"] none).all
      (fun e => e.2.isNone)) = true
    ∧ (fetchDexscreenerBatchByTokens (fun _ => Except.error ()) ["z"] none).2
        = Except.error () := by
  have h := c5_adapter_failure_containment
  refine ⟨?_, ?_,
    h.2.2 (fun _ => Except.error ()) ["z"] none (fun req => rfl) (by decide)⟩
  · rw [List.all_eq_true]
    intro e he
    rw [Option.isNone_iff_eq_none]
    exact h.1 geckoFailOracle ["x"] none (fun req => rfl) e he
  · rw [List.all_eq_true]
    intro e he
    rw [Option.isNone_iff_eq_none]
    exact h.2.1 ["y"] none e he

/-- C6 counterexample: the key passed in does not itself appear as a key of
the returned map when it has upper case — the map is keyed by the normalized
(lower-cased) form only. -/
theorem c6_counterexample :
    "A" ∈ (["A"] : List String)
    ∧ "A" ∉ (fetchCoingeckoBatchByIds geckoFailOracle ["A"] none).map Prod.fst := by
  decide

/-- C6 (amended): each adapter's returned map binds exactly the normalized
(lower-cased, empty-dropped, and for Dexscreener trimmed, first-occurrence
de-duplicated) forms of the keys passed in — so every input key that does not
normalize to the empty string is covered under its normalized form, mapped to
a price or explicitly to unknown, duplicates collapsing to one entry; an input
key is NOT itself a map key when normalization changes it, and a key that is
empty after normalization is dropped. -/
theorem c6_adapter_key_totality :
    (∀ (oracle : GeckoOracle) (ids : List String) (batchSize? : Option Nat),
      (fetchCoingeckoBatchByIds oracle ids batchSize?).map Prod.fst = geckoUniq ids
      ∧ ∀ a ∈ ids, jsToLower a ≠ "" →
          (lookupA (fetchCoingeckoBatchByIds oracle ids batchSize?)
            (jsToLower a)).isSome = true)
    ∧ (∀ (lookup : String → Option ℚ) (slugs : List String) (concurrency? : Option Nat),
      (fetchCmcBatchBySlugs lookup slugs concurrency?).map Prod.fst = geckoUniq slugs
      ∧ ∀ a ∈ slugs, jsToLower a ≠ "" →
          (lookupA (fetchCmcBatchBySlugs lookup slugs concurrency?)
            (jsToLower a)).isSome = true)
    ∧ (∀ (oracle : DexOracle) (addresses : List String) (batchSize? : Option Nat) m,
      (fetchDexscreenerBatchByTokens oracle addresses batchSize?).2 = Except.ok m →
      m.map Prod.fst = (dexUniq addresses).map Prod.snd
      ∧ ∀ a ∈ addresses, jsTrim a ≠ "" →
          (lookupA m (jsToLower (jsTrim a))).isSome = true) := by
  refine ⟨?_, ?_, ?_⟩
  · intro oracle ids batchSize?
    refine ⟨fetchCoingeckoBatchByIds_keys oracle ids batchSize?, ?_⟩
    intro a ha hne
    rw [lookupA_isSome, fetchCoingeckoBatchByIds_keys]
    exact (mem_geckoUniq ids (jsToLower a)).mpr ⟨⟨a, ha, rfl⟩, hne⟩
  · intro lookup slugs concurrency?
    refine ⟨fetchCmcBatchBySlugs_keys lookup slugs concurrency?, ?_⟩
    intro a ha hne
    rw [lookupA_isSome, fetchCmcBatchBySlugs_keys]
    exact (mem_geckoUniq slugs (jsToLower a)).mpr ⟨⟨a, ha, rfl⟩, hne⟩
  · intro oracle addresses batchSize? m h
    have h2 : (dexLoop oracle
        (chunkList (max 1 (min 30 (batchSize?.getD 30))) (dexUniq addresses))
        ((dexUniq addresses).map (fun r => (r.2, (none : Option ℚ))))).2
        = Except.ok m := h
    have hkeys := dexLoop_keys oracle _ _ m h2
    rw [List.map_map] at hkeys
    have hkeys2 : m.map Prod.fst = (dexUniq addresses).map Prod.snd := by
      rw [hkeys]
      exact List.map_congr_left (fun e _ => rfl)
    refine ⟨hkeys2, ?_⟩
    intro a ha hne
    rw [lookupA_isSome, hkeys2]
    exact (mem_dexUniq_snd addresses (jsToLower (jsTrim a))).mpr ⟨a, ha, hne, rfl⟩

/-- Witness for C6: concrete runs per adapter — "A" is covered as "a" in the
CoinGecko map, "B" as "b" in the CMC map with the duplicate collapsed, and
the trimmed lower-cased address is bound in a successful Dexscreener map. -/
theorem c6_witness :
    (fetchCoingeckoBatchByIds geckoFailOracle ["A"] none).map Prod.fst = geckoUniq ["A"]
    ∧ (lookupA (fetchCoingeckoBatchByIds geckoFailOracle ["A"] none)
        (jsToLower "A")).isSome = true
    ∧ (lookupA (fetchCmcBatchBySlugs (fun _ => none) ["B", "b"] none)
        (jsToLower "B")).isSome = true
    ∧ (lookupA [("a", (none : Option ℚ))] (jsToLower (jsTrim " a "))).isSome = true := by
  have h := c6_adapter_key_totality
  have hok : (fetchDexscreenerBatchByTokens dexEmptyOracle [" a "] none).2
      = Except.ok [("a", (none : Option ℚ))] := by rfl
  refine ⟨(h.1 geckoFailOracle ["A"] none).1,
    (h.1 geckoFailOracle ["A"] none).2 "A" (by decide) (by decide),
    (h.2.1 (fun _ => none) ["B", "b"] none).2 "B" (by decide) (by decide),
    (h.2.2 dexEmptyOracle [" a "] none [("a", none)] hok).2 " a " (by decide) (by decide)⟩

/-- Whether an upstream request queries (an address normalizing to) key `k`. -/
def reqCoversKey (r : DexReq) (k : String) : Bool :=
  r.addrs.any (fun c => c.2 == k)

/-- How many logged requests covered key `k`. -/
def countReqKey (log : List DexReq) (k : String) : Nat :=
  (log.filter (fun r => reqCoversKey r k)).length

/-- How many logged chunk (batch) requests covered key `k`. -/
def countBatchKey (log : List DexReq) (k : String) : Nat :=
  (log.filter (fun r => r.batch && reqCoversKey r k)).length

/-- How many logged per-address fallback requests covered key `k`. -/
def countFallbackKey (log : List DexReq) (k : String) : Nat :=
  (log.filter (fun r => !r.batch && reqCoversKey r k)).length

theorem reqCoversKey_iff (b : Bool) (addrs : List (String × String)) (k : String) :
    reqCoversKey ⟨b, addrs⟩ k = true ↔ k ∈ addrs.map Prod.snd := by
  rw [reqCoversKey, List.any_eq_true]
  constructor
  · rintro ⟨c, hc, hck⟩
    exact List.mem_map.mpr ⟨c, hc, by simpa using hck⟩
  · intro h
    obtain ⟨c, hc, hck⟩ := List.mem_map.mp h
    exact ⟨c, hc, by simpa using hck⟩

/-- The fallback loop logs exactly one single-address request per chunk
entry, in order. -/
theorem dexFallback_log (oracle : DexOracle) (cs : List (String × String))
    (out : List (String × Option ℚ)) :
    (dexFallback oracle cs out).1
      = cs.map (fun c => { batch := false, addrs := [c] }) := by
  induction cs generalizing out with
  | nil => rfl
  | cons c rest ih =>
    show ({ batch := false, addrs := [c] } : DexReq) :: (dexFallback oracle rest _).1 = _
    rw [ih, List.map_cons]

/-- Fallback requests never count as batch requests. -/
theorem countBatchKey_fallback (cs : List (String × String)) (k : String) :
    countBatchKey (cs.map (fun c => { batch := false, addrs := [c] })) k = 0 := by
  induction cs with
  | nil => rfl
  | cons c rest ih =>
    rw [countBatchKey, List.map_cons, List.filter_cons] at *
    simpa using ih

/-- A chunk's fallback requests cover `k` once per occurrence of `k` among
the chunk's keys. -/
theorem countFallbackKey_fallback (cs : List (String × String)) (k : String) :
    countFallbackKey (cs.map (fun c => { batch := false, addrs := [c] })) k
      = List.count k (cs.map Prod.snd) := by
  induction cs with
  | nil => rfl
  | cons c rest ih =>
    rw [countFallbackKey, List.map_cons, List.filter_cons] at *
    by_cases hck : c.2 = k
    · rw [if_pos (by simpa [reqCoversKey] using hck)]
      rw [List.map_cons, List.count_cons]
      simp only [List.length_cons]
      rw [ih]
      simp [hck]
    · rw [if_neg (by simpa [reqCoversKey] using hck)]
      rw [List.map_cons, List.count_cons]
      rw [ih]
      simp [hck]

/-- The fallback stage of one chunk iteration (dexscreener.ts lines 160–169):
the per-address pass and its log when the chunk yielded nothing, the untouched
assignment otherwise. -/
def dexFB (oracle : DexOracle) (chunk : List (String × String)) (pairs : List DexPair)
    (out : List (String × Option ℚ)) : List DexReq × List (String × Option ℚ) :=
  if fallbackNeeded chunk pairs (assignChunk chunk pairs out)
  then dexFallback oracle chunk (assignChunk chunk pairs out)
  else ([], assignChunk chunk pairs out)

/-- Unfolding the chunk loop's log on a successful chunk request. -/
theorem dexLoop_log_ok (oracle : DexOracle) (chunk : List (String × String))
    (rest : List (List (String × String))) (out : List (String × Option ℚ))
    (pairs : List DexPair) (h : oracle (chunk.map (·.1)) = Except.ok pairs) :
    (dexLoop oracle (chunk :: rest) out).1
      = { batch := true, addrs := chunk }
        :: (dexFB oracle chunk pairs out).1
        ++ (dexLoop oracle rest (dexFB oracle chunk pairs out).2).1 := by
  rw [dexLoop, h]
  rfl

/-- Unfolding the chunk loop's log on a failed chunk request. -/
theorem dexLoop_log_error (oracle : DexOracle) (chunk : List (String × String))
    (rest : List (List (String × String))) (out : List (String × Option ℚ))
    (h : oracle (chunk.map (·.1)) = Except.error ()) :
    (dexLoop oracle (chunk :: rest) out).1 = [{ batch := true, addrs := chunk }] := by
  rw [dexLoop, h]

theorem filterLen_cons (p : DexReq → Bool) (r : DexReq) (l : List DexReq) :
    ((r :: l).filter p).length = (if p r then 1 else 0) + (l.filter p).length := by
  rw [List.filter_cons]
  split
  · rw [List.length_cons]; omega
  · omega

theorem filterLen_append (p : DexReq → Bool) (a b : List DexReq) :
    ((a ++ b).filter p).length = (a.filter p).length + (b.filter p).length := by
  rw [List.filter_append, List.length_append]

/-- Any request of a fallback log covers `k` once per occurrence of `k` among
the chunk keys. -/
theorem countReqKey_fallback (cs : List (String × String)) (k : String) :
    countReqKey (cs.map (fun c => { batch := false, addrs := [c] })) k
      = List.count k (cs.map Prod.snd) := by
  induction cs with
  | nil => rfl
  | cons c rest ih =>
    rw [countReqKey, List.map_cons, List.filter_cons] at *
    by_cases hck : c.2 = k
    · rw [if_pos (by simpa [reqCoversKey] using hck)]
      rw [List.map_cons, List.count_cons]
      simp only [List.length_cons]
      rw [ih]
      simp [hck]
    · rw [if_neg (by simpa [reqCoversKey] using hck)]
      rw [List.map_cons, List.count_cons]
      rw [ih]
      simp [hck]

/-- A key outside every chunk is covered by no logged request at all. -/
theorem dexLoop_count_zero (oracle : DexOracle) (k : String) :
    ∀ (chunks : List (List (String × String))) (out : List (String × Option ℚ)),
      (∀ c ∈ chunks, k ∉ c.map Prod.snd) →
      countReqKey (dexLoop oracle chunks out).1 k = 0 := by
  intro chunks
  induction chunks with
  | nil => intro out _; rfl
  | cons chunk rest ih =>
    intro out h
    have hck : reqCoversKey ⟨true, chunk⟩ k = false := by
      rw [Bool.eq_false_iff]
      intro hx
      exact h chunk (List.mem_cons_self _ _) ((reqCoversKey_iff _ _ _).mp hx)
    have hkc : k ∉ chunk.map Prod.snd := h chunk (List.mem_cons_self _ _)
    cases horacle : oracle (chunk.map (·.1)) with
    | error e =>
      cases e
      rw [dexLoop_log_error oracle chunk rest out horacle]
      rw [countReqKey, List.filter_cons, hck]
      rfl
    | ok pairs =>
      rw [dexLoop_log_ok oracle chunk rest out pairs horacle]
      simp only [countReqKey, filterLen_cons, filterLen_append]
      have hrest : ((dexLoop oracle rest (dexFB oracle chunk pairs out).2).1.filter
          (fun r => reqCoversKey r k)).length = 0 :=
        ih _ (fun c hc => h c (List.mem_cons_of_mem _ hc))
      have hfb : ((dexFB oracle chunk pairs out).1.filter
          (fun r => reqCoversKey r k)).length = 0 := by
        rw [dexFB]
        split
        · rw [dexFallback_log]
          have := countReqKey_fallback chunk k
          rw [countReqKey] at this
          rw [this]
          exact List.count_eq_zero_of_not_mem hkc
        · rfl
      rw [hck, hrest, hfb]
      rfl

/-- The two truncated counters are bounded by the full one. -/
theorem countBatchKey_le_countReqKey (log : List DexReq) (k : String) :
    countBatchKey log k ≤ countReqKey log k := by
  induction log with
  | nil => exact Nat.le_refl _
  | cons r rest ih =>
    rw [countBatchKey, countReqKey, filterLen_cons, filterLen_cons] at *
    by_cases hr : reqCoversKey r k
    · simp only [hr, Bool.and_true]
      cases r.batch <;> simp <;> omega
    · simp only [hr, Bool.and_false]
      simpa using ih

theorem countFallbackKey_le_countReqKey (log : List DexReq) (k : String) :
    countFallbackKey log k ≤ countReqKey log k := by
  induction log with
  | nil => exact Nat.le_refl _
  | cons r rest ih =>
    rw [countFallbackKey, countReqKey, filterLen_cons, filterLen_cons] at *
    by_cases hr : reqCoversKey r k
    · simp only [hr, Bool.and_true]
      cases r.batch <;> simp <;> omega
    · simp only [hr, Bool.and_false]
      simpa using ih

/-- At most one batch request and at most one fallback request cover any
given key, provided the chunks jointly carry duplicate-free keys. -/
theorem dexLoop_count_le (oracle : DexOracle) (k : String) :
    ∀ (chunks : List (List (String × String))) (out : List (String × Option ℚ)),
      ((chunks.flatten).map Prod.snd).Nodup →
      countBatchKey (dexLoop oracle chunks out).1 k ≤ 1
      ∧ countFallbackKey (dexLoop oracle chunks out).1 k ≤ 1 := by
  intro chunks
  induction chunks with
  | nil => intro out _; exact ⟨Nat.zero_le _, Nat.zero_le _⟩
  | cons chunk rest ih =>
    intro out hnodup
    rw [List.flatten_cons, List.map_append, List.nodup_append] at hnodup
    obtain ⟨hnc, hnr, hdisj⟩ := hnodup
    cases horacle : oracle (chunk.map (·.1)) with
    | error e =>
      cases e
      rw [dexLoop_log_error oracle chunk rest out horacle]
      constructor
      · rw [countBatchKey, filterLen_cons]
        split <;> simp
      · rw [countFallbackKey, filterLen_cons]
        simp
    | ok pairs =>
      rw [dexLoop_log_ok oracle chunk rest out pairs horacle]
      by_cases hk : k ∈ chunk.map Prod.snd
      · have hzero : countReqKey
            (dexLoop oracle rest (dexFB oracle chunk pairs out).2).1 k = 0 := by
          refine dexLoop_count_zero oracle k rest _ ?_
          intro c hc hkc
          obtain ⟨d, hd, hdk⟩ := List.mem_map.mp hkc
          exact hdisj hk
            (List.mem_map.mpr ⟨d, List.mem_flatten.mpr ⟨c, hc, hd⟩, hdk⟩)
        constructor
        · simp only [countBatchKey, filterLen_cons, filterLen_append]
          have h1 : ((dexFB oracle chunk pairs out).1.filter
              (fun r => r.batch && reqCoversKey r k)).length = 0 := by
            rw [dexFB]
            split
            · rw [dexFallback_log]
              have := countBatchKey_fallback chunk k
              rw [countBatchKey] at this
              exact this
            · rfl
          have h2 : ((dexLoop oracle rest (dexFB oracle chunk pairs out).2).1.filter
              (fun r => r.batch && reqCoversKey r k)).length = 0 := by
            have := countBatchKey_le_countReqKey
              (dexLoop oracle rest (dexFB oracle chunk pairs out).2).1 k
            rw [hzero] at this
            rw [countBatchKey] at this
            omega
          rw [h1, h2]
          split <;> simp
        · simp only [countFallbackKey, filterLen_cons, filterLen_append]
          have h1 : ((dexFB oracle chunk pairs out).1.filter
              (fun r => !r.batch && reqCoversKey r k)).length ≤ 1 := by
            rw [dexFB]
            split
            · rw [dexFallback_log]
              have := countFallbackKey_fallback chunk k
              rw [countFallbackKey] at this
              rw [this]
              exact List.nodup_iff_count_le_one.mp hnc k
            · simp
          have h2 : ((dexLoop oracle rest (dexFB oracle chunk pairs out).2).1.filter
              (fun r => !r.batch && reqCoversKey r k)).length = 0 := by
            have := countFallbackKey_le_countReqKey
              (dexLoop oracle rest (dexFB oracle chunk pairs out).2).1 k
            rw [hzero] at this
            rw [countFallbackKey] at this
            omega
          rw [h2]
          simpa using h1
      · have hck : reqCoversKey ⟨true, chunk⟩ k = false := by
          rw [Bool.eq_false_iff]
          intro hx
          exact hk ((reqCoversKey_iff _ _ _).mp hx)
        have hrest := ih (dexFB oracle chunk pairs out).2 hnr
        have h1b : ((dexFB oracle chunk pairs out).1.filter
            (fun r => r.batch && reqCoversKey r k)).length = 0 := by
          rw [dexFB]
          split
          · rw [dexFallback_log]
            have := countBatchKey_fallback chunk k
            rw [countBatchKey] at this
            exact this
          · rfl
        have h1f : ((dexFB oracle chunk pairs out).1.filter
            (fun r => !r.batch && reqCoversKey r k)).length = 0 := by
          rw [dexFB]
          split
          · rw [dexFallback_log]
            have := countFallbackKey_fallback chunk k
            rw [countFallbackKey] at this
            rw [this]
            exact List.count_eq_zero_of_not_mem hk
          · rfl
        constructor
        · simp only [countBatchKey, filterLen_cons, filterLen_append]
          rw [h1b, hck]
          have := hrest.1
          rw [countBatchKey] at this
          simpa using this
        · simp only [countFallbackKey, filterLen_cons, filterLen_append]
          rw [h1f, hck]
          have := hrest.2
          rw [countFallbackKey] at this
          simpa using this

/-- Each chunk inherits duplicate-freedom of keys from the whole. -/
theorem nodup_of_flatten_nodup (chunks : List (List (String × String)))
    (h : ((chunks.flatten).map Prod.snd).Nodup) :
    ∀ c ∈ chunks, (c.map Prod.snd).Nodup := by
  induction chunks with
  | nil => intro c hc; cases hc
  | cons chunk rest ih =>
    rw [List.flatten_cons, List.map_append, List.nodup_append] at h
    intro c hc
    rcases List.mem_cons.mp hc with rfl | hc
    · exact h.1
    · exact ih h.2.1 c hc

/-- Every logged request queries duplicate-free keys. -/
theorem dexLoop_req_nodup (oracle : DexOracle) :
    ∀ (chunks : List (List (String × String))) (out : List (String × Option ℚ)),
      (∀ c ∈ chunks, (c.map Prod.snd).Nodup) →
      ∀ r ∈ (dexLoop oracle chunks out).1, (r.addrs.map Prod.snd).Nodup := by
  intro chunks
  induction chunks with
  | nil => intro out _ r hr; cases hr
  | cons chunk rest ih =>
    intro out h r hr
    cases horacle : oracle (chunk.map (·.1)) with
    | error e =>
      cases e
      rw [dexLoop_log_error oracle chunk rest out horacle] at hr
      rcases List.mem_cons.mp hr with rfl | hr2
      · exact h chunk (List.mem_cons_self _ _)
      · cases hr2
    | ok pairs =>
      rw [dexLoop_log_ok oracle chunk rest out pairs horacle] at hr
      rcases List.mem_cons.mp hr with rfl | hr2
      · exact h chunk (List.mem_cons_self _ _)
      · rcases List.mem_append.mp hr2 with hfb | hrest
        · have hfb2 : r ∈ (dexFB oracle chunk pairs out).1 := hfb
          rw [dexFB] at hfb2
          revert hfb2
          split
          · rw [dexFallback_log]
            intro hfb2
            obtain ⟨c, _, hce⟩ := List.mem_map.mp hfb2
            rw [← hce]
            exact List.nodup_singleton _
          · intro hfb2; cases hfb2
        · exact ih _ (fun c hc => h c (List.mem_cons_of_mem _ hc)) r hrest

/-- Every logged request queries at most `n` addresses, when every chunk
does. -/
theorem dexLoop_req_sizes (oracle : DexOracle) (n : Nat) (hn : 1 ≤ n) :
    ∀ (chunks : List (List (String × String))) (out : List (String × Option ℚ)),
      (∀ c ∈ chunks, c.length ≤ n) →
      ∀ r ∈ (dexLoop oracle chunks out).1, r.addrs.length ≤ n := by
  intro chunks
  induction chunks with
  | nil => intro out _ r hr; cases hr
  | cons chunk rest ih =>
    intro out h r hr
    cases horacle : oracle (chunk.map (·.1)) with
    | error e =>
      cases e
      rw [dexLoop_log_error oracle chunk rest out horacle] at hr
      rcases List.mem_cons.mp hr with rfl | hr2
      · exact h chunk (List.mem_cons_self _ _)
      · cases hr2
    | ok pairs =>
      rw [dexLoop_log_ok oracle chunk rest out pairs horacle] at hr
      rcases List.mem_cons.mp hr with rfl | hr2
      · exact h chunk (List.mem_cons_self _ _)
      · rcases List.mem_append.mp hr2 with hfb | hrest
        · have hfb2 : r ∈ (dexFB oracle chunk pairs out).1 := hfb
          rw [dexFB] at hfb2
          revert hfb2
          split
          · rw [dexFallback_log]
            intro hfb2
            obtain ⟨c, _, hce⟩ := List.mem_map.mp hfb2
            rw [← hce]
            exact hn
          · intro hfb2; cases hfb2
        · exact ih _ (fun c hc => h c (List.mem_cons_of_mem _ hc)) r hrest

/-- C7 counterexample: the same identifier IS queried upstream twice by the
Dexscreener adapter in one batch invocation — the duplicated input "a" is
de-duplicated into one chunk request, but the chunk's empty response triggers
the per-address fallback, which queries "a" a second time. -/
theorem c7_counterexample :
    countReqKey (fetchDexscreenerBatchByTokens dexEmptyOracle ["a", "a"] none).1 "a"
      = 2 := by
  rfl

/-- C7 (amended): every adapter de-duplicates its input keys before calling
upstream.  For CoinGecko and CMC a repeated key costs exactly one upstream
lookup: each distinct normalized key occurs exactly once across all chunk
requests of a run.  For Dexscreener each distinct normalized key occurs in at
most one chunk request and in at most one per-address fallback request — so
up to two upstream lookups when a whole sub-batch yields no usable price —
and no single request queries the same key twice. -/
theorem c7_adapter_dedup :
    (∀ (ids : List String) (batchSize? : Option Nat) (k : String),
      List.count k (geckoRequests ids batchSize?).flatten
        = if k ∈ geckoUniq ids then 1 else 0)
    ∧ (∀ (slugs : List String) (k : String),
      List.count k (cmcRequests slugs) = if k ∈ geckoUniq slugs then 1 else 0)
    ∧ (∀ (oracle : DexOracle) (addresses : List String) (batchSize? : Option Nat)
        (k : String),
      countBatchKey (fetchDexscreenerBatchByTokens oracle addresses batchSize?).1 k ≤ 1
      ∧ countFallbackKey
          (fetchDexscreenerBatchByTokens oracle addresses batchSize?).1 k ≤ 1
      ∧ ∀ r ∈ (fetchDexscreenerBatchByTokens oracle addresses batchSize?).1,
          (r.addrs.map Prod.snd).Nodup) := by
  refine ⟨?_, ?_, ?_⟩
  · intro ids batchSize? k
    rw [geckoRequests, chunkList_flatten]
    split
    · exact List.count_eq_one_of_mem (nodup_geckoUniq ids) (by assumption)
    · exact List.count_eq_zero_of_not_mem (by assumption)
  · intro slugs k
    rw [cmcRequests]
    split
    · exact List.count_eq_one_of_mem (nodup_geckoUniq slugs) (by assumption)
    · exact List.count_eq_zero_of_not_mem (by assumption)
  · intro oracle addresses batchSize? k
    have hnodup : (((chunkList (max 1 (min 30 (batchSize?.getD 30)))
        (dexUniq addresses)).flatten).map Prod.snd).Nodup := by
      rw [chunkList_flatten]
      exact nodup_dedupByKey_snd _
    have hcounts := dexLoop_count_le oracle k
      (chunkList (max 1 (min 30 (batchSize?.getD 30))) (dexUniq addresses))
      ((dexUniq addresses).map (fun r => (r.2, (none : Option ℚ)))) hnodup
    have hreqnodup := dexLoop_req_nodup oracle
      (chunkList (max 1 (min 30 (batchSize?.getD 30))) (dexUniq addresses))
      ((dexUniq addresses).map (fun r => (r.2, (none : Option ℚ))))
      (nodup_of_flatten_nodup _ hnodup)
    exact ⟨hcounts.1, hcounts.2, hreqnodup⟩

/-- Witness for C7 at concrete runs: the duplicated CoinGecko id "A"/"a"
costs exactly one chunk occurrence, a CMC slug likewise, and in the concrete
Dexscreener run with duplicated input each key sits in at most one batch and
at most one fallback request. -/
theorem c7_witness :
    List.count "a" (geckoRequests ["A", "a"] none).flatten = 1
    ∧ List.count "b" (cmcRequests ["b", "B"]) = 1
    ∧ countBatchKey
        (fetchDexscreenerBatchByTokens dexEmptyOracle ["a", "a"] none).1 "a" ≤ 1
    ∧ countFallbackKey
        (fetchDexscreenerBatchByTokens dexEmptyOracle ["a", "a"] none).1 "a" ≤ 1 := by
  have h := c7_adapter_dedup
  refine ⟨?_, ?_, (h.2.2 dexEmptyOracle ["a", "a"] none "a").1,
    (h.2.2 dexEmptyOracle ["a", "a"] none "a").2.1⟩
  · rw [h.1 ["A", "a"] none "a", if_pos (by decide)]
  · rw [h.2.1 ["b", "B"] "b", if_pos (by decide)]

/-- Looking up the key just written. -/
theorem lookupA_updA_self (m : List (String × Option ℚ)) (k : String) (v : Option ℚ)
    (h : k ∈ m.map Prod.fst) : lookupA (updA m k v) k = some v := by
  induction m with
  | nil => cases h
  | cons e rest ih =>
    show lookupA ((if e.1 = k then (k, v) else e) :: updA rest k v) k = some v
    by_cases hek : e.1 = k
    · rw [if_pos hek]
      rw [lookupA, List.find?_cons_of_pos _ (by simp)]
      rfl
    · rw [if_neg hek]
      rw [lookupA, List.find?_cons_of_neg _ (by simpa using hek)]
      rw [List.map_cons] at h
      rcases List.mem_cons.mp h with hk | hk
      · exact absurd hk.symm hek
      · exact ih hk

/-- Looking up a different key sees through a write. -/
theorem lookupA_updA_ne (m : List (String × Option ℚ)) (k k2 : String) (v : Option ℚ)
    (h : k2 ≠ k) : lookupA (updA m k v) k2 = lookupA m k2 := by
  induction m with
  | nil => rfl
  | cons e rest ih =>
    show lookupA ((if e.1 = k then (k, v) else e) :: updA rest k v) k2 = _
    by_cases hek : e.1 = k
    · rw [if_pos hek]
      rw [lookupA, List.find?_cons_of_neg _ (by simpa using (h ∘ Eq.symm))]
      rw [lookupA, List.find?_cons_of_neg _ (by rw [hek]; simpa using (h ∘ Eq.symm))]
      exact ih
    · rw [if_neg hek]
      by_cases he2 : e.1 = k2
      · rw [lookupA, List.find?_cons_of_pos _ (by simpa using he2)]
        rw [lookupA, List.find?_cons_of_pos _ (by simpa using he2)]
      · rw [lookupA, List.find?_cons_of_neg _ (by simpa using he2)]
        rw [lookupA, List.find?_cons_of_neg _ (by simpa using he2)]
        exact ih

/-- A chunk assignment does not touch keys outside the chunk. -/
theorem assignChunk_lookup_notin (chunk : List (String × String)) (pairs : List DexPair)
    (out : List (String × Option ℚ)) (k : String) (h : k ∉ chunk.map Prod.snd) :
    lookupA (assignChunk chunk pairs out) k = lookupA out k := by
  induction chunk generalizing out with
  | nil => rfl
  | cons c rest ih =>
    rw [List.map_cons] at h
    have hk : k ≠ c.2 := fun hx => h (by rw [hx]; exact List.mem_cons_self _ _)
    show lookupA (assignChunk rest pairs (updA out c.2 _)) k = _
    rw [ih _ (fun hx => h (List.mem_cons_of_mem _ hx)),
      lookupA_updA_ne out c.2 k _ hk]

/-- After a chunk assignment, every chunk key holds exactly the best-pair
price computed from the chunk response. -/
theorem assignChunk_lookup (chunk : List (String × String)) (pairs : List DexPair)
    (out : List (String × Option ℚ)) (c : String × String) (hc : c ∈ chunk)
    (hnodup : (chunk.map Prod.snd).Nodup)
    (hkeys : c.2 ∈ out.map Prod.fst) :
    lookupA (assignChunk chunk pairs out) c.2
      = some ((pickBestPair (groupedFor pairs c.2)).bind (·.priceUsd)) := by
  induction chunk generalizing out with
  | nil => cases hc
  | cons d rest ih =>
    rw [List.map_cons] at hnodup
    rcases List.mem_cons.mp hc with rfl | hc2
    · show lookupA (assignChunk rest pairs (updA out c.2 _)) c.2 = _
      rw [assignChunk_lookup_notin rest pairs _ c.2 (List.nodup_cons.mp hnodup).1]
      exact lookupA_updA_self out c.2 _ hkeys
    · show lookupA (assignChunk rest pairs (updA out d.2 _)) c.2 = _
      refine ih (updA out d.2 _) hc2 (List.nodup_cons.mp hnodup).2 ?_
      rw [updA_keys]
      exact hkeys

/-- If the chunk response is nonempty and assigns a price to at least one
chunk key, the fallback is skipped. -/
theorem fallbackNeeded_false (chunk : List (String × String)) (pairs : List DexPair)
    (out : List (String × Option ℚ)) (hnodup : (chunk.map Prod.snd).Nodup)
    (hkeys : ∀ d ∈ chunk, d.2 ∈ out.map Prod.fst)
    (hne : pairs ≠ [])
    (hsome : ∃ d ∈ chunk, (pickBestPair (groupedFor pairs d.2)).bind (·.priceUsd) ≠ none) :
    fallbackNeeded chunk pairs (assignChunk chunk pairs out) = false := by
  obtain ⟨d, hd, hdsome⟩ := hsome
  rw [fallbackNeeded, Bool.or_eq_false_iff]
  constructor
  · rw [List.isEmpty_eq_false_iff_exists_mem]
    cases pairs with
    | nil => exact absurd rfl hne
    | cons p rest => exact ⟨p, List.mem_cons_self _ _⟩
  · rw [List.all_eq_false]
    refine ⟨d, hd, ?_⟩
    rw [assignChunk_lookup chunk pairs out d hd hnodup (hkeys d hd)]
    simpa using hdsome

/-- When every chunk request succeeds with a usable price, the log is exactly
one batch request per chunk — no fallback requests. -/
theorem dexLoop_shape (oracle : DexOracle) :
    ∀ (chunks : List (List (String × String))) (out : List (String × Option ℚ)),
      (∀ c ∈ chunks, ∀ d ∈ c, d.2 ∈ out.map Prod.fst) →
      (∀ c ∈ chunks, (c.map Prod.snd).Nodup) →
      (∀ c ∈ chunks, ∃ pairs, oracle (c.map (·.1)) = Except.ok pairs ∧ pairs ≠ [] ∧
        ∃ d ∈ c, (pickBestPair (groupedFor pairs d.2)).bind (·.priceUsd) ≠ none) →
      (dexLoop oracle chunks out).1
        = chunks.map (fun c => { batch := true, addrs := c }) := by
  intro chunks
  induction chunks with
  | nil => intro out _ _ _; rfl
  | cons chunk rest ih =>
    intro out hkeys hnodup hok
    obtain ⟨pairs, hoc, hne, hsome⟩ := hok chunk (List.mem_cons_self _ _)
    rw [dexLoop_log_ok oracle chunk rest out pairs hoc]
    have hfbf := fallbackNeeded_false chunk pairs out
      (hnodup chunk (List.mem_cons_self _ _)) (hkeys chunk (List.mem_cons_self _ _))
      hne hsome
    have hfb : dexFB oracle chunk pairs out = ([], assignChunk chunk pairs out) := by
      rw [dexFB, hfbf]
      rfl
    rw [hfb]
    show ({ batch := true, addrs := chunk } : DexReq)
      :: [] ++ (dexLoop oracle rest (assignChunk chunk pairs out)).1 = _
    rw [List.singleton_append, List.map_cons]
    congr 1
    refine ih _ ?_ (fun c hc => hnodup c (List.mem_cons_of_mem _ hc))
      (fun c hc => hok c (List.mem_cons_of_mem _ hc))
    intro c hc d hd
    rw [assignChunk_keys]
    exact hkeys c (List.mem_cons_of_mem _ hc) d hd

/-- Chunking a 31-element list by 30 yields the 30-slice and the 1-slice. -/
theorem chunkList_of_length_31 {α : Type} (l : List α) (h : l.length = 31) :
    chunkList 30 l = [l.take 30, l.drop 30] := by
  have hmax : max 1 30 = 30 := by decide
  rw [chunkList_eq]
  rw [if_neg (by rw [List.isEmpty_iff]; intro hx; rw [hx] at h; cases h)]
  rw [hmax]
  congr 1
  have hd : (l.drop 30).length = 1 := by rw [List.length_drop, h]
  rw [chunkList_eq]
  rw [if_neg (by rw [List.isEmpty_iff]; intro hx; rw [hx] at hd; cases hd)]
  rw [hmax]
  rw [List.take_of_length_le (by rw [hd]; omega)]
  have hd2 : (l.drop 30).drop 30 = [] :=
    List.drop_eq_nil_of_le (by rw [hd]; omega)
  rw [hd2]
  rfl

/-- C8 (amended): the Dexscreener batch adapter sends at most 30 identifiers
per upstream request; with 31 distinct normalized addresses and the
configured batch size 30, its chunk requests are exactly one of 30 and one of
1 — and these are the only upstream requests when each chunk's response
carries a usable price (otherwise the documented per-address fallback issues
extra single-address requests, see the C7 development). -/
theorem c8_dexscreener_request_sizes (oracle : DexOracle) (addresses : List String)
    (batchSize? : Option Nat) :
    (∀ r ∈ (fetchDexscreenerBatchByTokens oracle addresses batchSize?).1,
        r.addrs.length ≤ 30)
    ∧ (batchSize? = some 30 →
        (dexUniq addresses).length = 31 →
        (∀ c ∈ chunkList 30 (dexUniq addresses),
          ∃ pairs, oracle (c.map (·.1)) = Except.ok pairs ∧ pairs ≠ [] ∧
            ∃ d ∈ c, (pickBestPair (groupedFor pairs d.2)).bind (·.priceUsd) ≠ none) →
        (fetchDexscreenerBatchByTokens oracle addresses batchSize?).1.map
          (fun r => (r.batch, r.addrs.length)) = [(true, 30), (true, 1)]) := by
  constructor
  · intro r hr
    have hb : max 1 (min 30 (batchSize?.getD 30)) ≤ 30 :=
      max_le (by omega) (min_le_left _ _)
    have hr2 : r ∈ (dexLoop oracle
        (chunkList (max 1 (min 30 (batchSize?.getD 30))) (dexUniq addresses))
        ((dexUniq addresses).map (fun x => (x.2, (none : Option ℚ))))).1 := hr
    refine dexLoop_req_sizes oracle 30 (by omega)
      (chunkList (max 1 (min 30 (batchSize?.getD 30))) (dexUniq addresses))
      ((dexUniq addresses).map (fun x => (x.2, (none : Option ℚ)))) ?_ r hr2
    intro c hc
    have := chunkList_sizes (max 1 (min 30 (batchSize?.getD 30))) (dexUniq addresses) c hc
    omega
  · intro hbs h31 hok
    subst hbs
    have hflat : (((chunkList 30 (dexUniq addresses)).flatten).map Prod.snd).Nodup := by
      rw [chunkList_flatten]
      exact nodup_dedupByKey_snd _
    have hshape := dexLoop_shape oracle (chunkList 30 (dexUniq addresses))
      ((dexUniq addresses).map (fun x => (x.2, (none : Option ℚ))))
      ?_ (nodup_of_flatten_nodup _ hflat) hok
    · show ((dexLoop oracle (chunkList 30 (dexUniq addresses))
        ((dexUniq addresses).map (fun x => (x.2, (none : Option ℚ))))).1).map
          (fun r => (r.batch, r.addrs.length)) = _
      rw [hshape, chunkList_of_length_31 _ h31]
      rw [List.map_cons, List.map_cons, List.map_cons, List.map_cons, List.map_nil,
        List.map_nil]
      have ht : ((dexUniq addresses).take 30).length = 30 := by
        rw [List.length_take, h31]
        decide
      have hdr : ((dexUniq addresses).drop 30).length = 1 := by
        rw [List.length_drop, h31]
      rw [ht, hdr]
    · intro c hc d hd
      rw [List.map_map]
      have hmem : d ∈ (dexUniq addresses) := by
        rw [← chunkList_flatten 30 (dexUniq addresses)]
        exact List.mem_flatten.mpr ⟨c, hc, hd⟩
      exact List.mem_map.mpr ⟨d, hmem, rfl⟩

/-- Thirty-one distinct lower-case addresses. -/
def addrs31 : List String := (List.range 31).map (fun n => "a" ++ toString n)

/-- C8 counterexample: with 31 distinct addresses and batch size 30 but an
upstream whose responses carry no pairs, the adapter issues 33 upstream
requests (2 chunk requests plus 31 per-address fallback requests), not
exactly 2. -/
theorem c8_counterexample :
    (fetchDexscreenerBatchByTokens dexEmptyOracle addrs31 (some 30)).1.length = 33
    ∧ (fetchDexscreenerBatchByTokens dexEmptyOracle addrs31 (some 30)).1.length ≠ 2 := by
  constructor
  · rfl
  · decide

/-- A Dexscreener upstream answering each request with one priced pair whose
base token is the first address of the request. -/
def dexGoodOracle : DexOracle := fun req =>
  Except.ok [⟨some 1, none, none, none, none, some (req.headD ""), none⟩]

/-- Witness for C8: on 31 distinct addresses with batch size 30 and an
upstream that prices each chunk, every request carries at most 30 addresses
and the log is exactly a 30-address chunk request and a 1-address one. -/
theorem c8_witness :
    ((fetchDexscreenerBatchByTokens dexGoodOracle addrs31 (some 30)).1.all
      (fun r => r.addrs.length ≤ 30)) = true
    ∧ (fetchDexscreenerBatchByTokens dexGoodOracle addrs31 (some 30)).1.map
        (fun r => (r.batch, r.addrs.length)) = [(true, 30), (true, 1)] := by
  have h := c8_dexscreener_request_sizes dexGoodOracle addrs31 (some 30)
  constructor
  · rw [List.all_eq_true]
    intro r hr
    exact decide_eq_true (h.1 r hr)
  · refine h.2 rfl (by decide) ?_
    intro c hc
    rw [chunkList_of_length_31 _ (by decide)] at hc
    rcases List.mem_cons.mp hc with rfl | hc2
    · exact ⟨_, rfl, by decide, ⟨("a0", "a0"), by decide, by decide⟩⟩
    · rcases List.mem_cons.mp hc2 with rfl | h0
      · exact ⟨_, rfl, by decide, ⟨("a30", "a30"), by decide, by decide⟩⟩
      · cases h0
